import Mathlib

/-!
Verification of the cursor-pagination module (`cursor_pagination.py`).

The development shallowly embeds the module:
* Python strings are embedded as `List Char` (`Str`);
* the cursor codec (`encode_cursor` / `decode_cursor`, including Python's
  lenient `b64decode`, `str.encode('ascii')` and UTF-8 round trip) is
  embedded byte-accurately;
* mongoengine `Q` objects are embedded as a small predicate language
  (`QPred`) whose dictionary entries carry the literal lookup-key strings
  (`field__lt`, `field__gt`, `field__exact`, `field__ne`, plain `field`)
  built by `apply_cursor`, together with mongoengine's combination rules
  (an empty `Q()` is the identity of `&` and `|`);
* querysets are embedded as a record of documents, schema nullability,
  current ordering, accumulated filter and limit, evaluated against a
  MongoDB-style order (null sorts below every concrete value, per-field
  direction flips the comparison).
-/

set_option maxHeartbeats 1000000

abbrev Str := List Char

/-- A stored document: a map from (dotted) field paths to an optional value.
`none` models a null / missing field. -/
abbrev Doc (V : Type) := Str → Option V

/-- `x.startswith('-')` on an ordering entry. -/
def startsDash : Str → Bool
  | c :: _ => c == '-'
  | [] => false

/-- `x.lstrip('-')`: remove every leading dash. -/
def lstripDash : Str → Str
  | c :: rest => if c = '-' then lstripDash rest else c :: rest
  | [] => []

/-- The `invert` helper inside `reverse_ordering`:
`x[1:] if x.startswith('-') else '-' + x`. -/
def invert (x : Str) : Str :=
  if startsDash x then x.tail else '-' :: x

/-- `reverse_ordering`: invert every entry of an ordering tuple. -/
def reverse_ordering (t : List Str) : List Str :=
  t.map invert

/-- An entry with at most one leading dash (the tail after a dash head does
not start with another dash). -/
def singleDash (x : Str) : Bool :=
  !(startsDash x && startsDash x.tail)

@[simp] theorem startsDash_nil : startsDash [] = false := rfl

@[simp] theorem startsDash_cons (c : Char) (t : Str) :
    startsDash (c :: t) = (c == '-') := rfl

theorem invert_dash (t : Str) : invert ('-' :: t) = t := by
  simp [invert]

theorem invert_nodash (c : Char) (t : Str) (h : c ≠ '-') :
    invert (c :: t) = '-' :: c :: t := by
  simp [invert, h]

theorem invert_nil : invert [] = ['-'] := rfl

theorem invert_invert (x : Str) (h : singleDash x = true) : invert (invert x) = x := by
  cases x with
  | nil => rfl
  | cons c t =>
    by_cases hc : c = '-'
    · subst hc
      rw [invert_dash]
      have ht : startsDash t = false := by
        simpa [singleDash] using h
      cases t with
      | nil => rfl
      | cons d t' =>
        have hd : d ≠ '-' := by simpa using ht
        exact invert_nodash d t' hd
    · rw [invert_nodash c t hc, invert_dash]

theorem invert_flips (x : Str) (h : singleDash x = true) :
    startsDash (invert x) = !(startsDash x) := by
  cases x with
  | nil => rfl
  | cons c t =>
    by_cases hc : c = '-'
    · subst hc
      rw [invert_dash]
      have ht : startsDash t = false := by
        simpa [singleDash] using h
      simp [ht]
    · rw [invert_nodash c t hc]
      simp [hc]

/-- C10: `reverse_ordering` flips the direction of every entry and is an
involution on tuples whose entries carry at most one leading dash. -/
theorem reverse_ordering_involution (t : List Str)
    (h : ∀ x ∈ t, singleDash x = true) :
    reverse_ordering (reverse_ordering t) = t ∧
      ∀ x ∈ t, startsDash (invert x) = !(startsDash x) := by
  constructor
  · simp only [reverse_ordering, List.map_map]
    calc t.map (invert ∘ invert) = t.map id := by
          apply List.map_congr_left
          intro x hx
          exact invert_invert x (h x hx)
      _ = t := List.map_id t
  · intro x hx
    exact invert_flips x (h x hx)

theorem reverse_ordering_involution_witness :
    reverse_ordering (reverse_ordering [['-', 'a'], ['b']]) = [['-', 'a'], ['b']] ∧
      ∀ x ∈ [['-', 'a'], ['b']], startsDash (invert x) = !(startsDash x) :=
  reverse_ordering_involution [['-', 'a'], ['b']] (by decide)

/-! ### Cursor codec: ASCII, base64 (Python `b64decode` lenient mode), UTF-8 -/

/-- The standard base64 alphabet as byte values
(`A`-`Z`, `a`-`z`, `0`-`9`, `+`, `/`). -/
def b64chars : List Nat :=
  (List.range 26).map (fun i => 65 + i) ++
    (List.range 26).map (fun i => 97 + i) ++
      (List.range 10).map (fun i => 48 + i) ++ [43, 47]

/-- Byte of the base64 character for a sextet value. -/
def b64enc1 (x : Nat) : Nat := b64chars.getD x 65

/-- Sextet value of a base64 alphabet byte. -/
def b64val (b : Nat) : Nat := b64chars.findIdx (fun c => c = b)

def isB64Byte (b : Nat) : Bool := b64chars.contains b

/-- `base64.b64encode` on a byte string, producing ASCII bytes
(with `=` padding, byte 61). -/
def b64encodeBytes : List Nat → List Nat
  | [] => []
  | [b1] => [b64enc1 (b1 / 4), b64enc1 (b1 % 4 * 16), 61, 61]
  | [b1, b2] => [b64enc1 (b1 / 4), b64enc1 (b1 % 4 * 16 + b2 / 16),
      b64enc1 (b2 % 16 * 4), 61]
  | b1 :: b2 :: b3 :: rest =>
      b64enc1 (b1 / 4) :: b64enc1 (b1 % 4 * 16 + b2 / 16) ::
        b64enc1 (b2 % 16 * 4 + b3 / 64) :: b64enc1 (b3 % 64) ::
          b64encodeBytes rest

/-- Reassemble bytes from a list of sextets (length `% 4` is 0, 2 or 3;
leftover bits of a trailing partial group are discarded, as CPython does). -/
def b64quads : List Nat → List Nat
  | s1 :: s2 :: s3 :: s4 :: rest =>
      (s1 * 4 + s2 / 16) :: (s2 % 16 * 16 + s3 / 4) :: (s3 % 4 * 64 + s4) ::
        b64quads rest
  | [s1, s2] => [s1 * 4 + s2 / 16]
  | [s1, s2, s3] => [s1 * 4 + s2 / 16, s2 % 16 * 16 + s3 / 4]
  | _ => []

/-- Python's `base64.b64decode` (default non-validating mode) on ASCII bytes:
characters outside the alphabet are discarded, then the data before the `=`
padding must have a residue of 0, 2 or 3 modulo 4, with enough padding
characters for a partial final group. Returns `none` where CPython raises
`binascii.Error` (a `ValueError`). -/
def pyB64Decode (bytes : List Nat) : Option (List Nat) :=
  let filtered := bytes.filter (fun b => isB64Byte b || b == 61)
  let dataChars := filtered.takeWhile (fun b => b ≠ 61)
  let pads := (filtered.drop dataChars.length).countP (fun b => b == 61)
  let data := dataChars.map b64val
  if data.length % 4 == 1 then none
  else if data.length % 4 == 2 && pads < 2 then none
  else if data.length % 4 == 3 && pads < 1 then none
  else some (b64quads data)

/-- UTF-8 encoding of a single scalar value. -/
def utf8EncodeChar (c : Char) : List Nat :=
  let n := c.toNat
  if n < 128 then [n]
  else if n < 2048 then [192 + n / 64, 128 + n % 64]
  else if n < 65536 then [224 + n / 4096, 128 + n / 64 % 64, 128 + n % 64]
  else [240 + n / 262144, 128 + n / 4096 % 64, 128 + n / 64 % 64, 128 + n % 64]

/-- `str.encode('utf8')`. -/
def utf8Encode : Str → List Nat
  | [] => []
  | c :: rest => utf8EncodeChar c ++ utf8Encode rest

/-- Append a decoded scalar in front of the rest of a decode result. -/
def utf8Cont (n : Nat) (o : Option Str) : Option Str :=
  match o with
  | some s => some (Char.ofNat n :: s)
  | none => none

set_option backward.eqns.nonrecursive false in
/-- Decode one UTF-8 sequence: returns the scalar value and the remaining
bytes, or `none` for a stray continuation byte, truncated sequence,
overlong encoding, surrogate or out-of-range value. -/
def utf8DecodeOne : List Nat → Option (Nat × List Nat)
  | [] => none
  | b :: rest =>
    if b < 128 then some (b, rest)
    else if b < 192 then none
    else if b < 224 then
      match rest with
      | b2 :: rest2 =>
        if 128 ≤ b2 ∧ b2 < 192 then
          let n := (b - 192) * 64 + (b2 - 128)
          if 128 ≤ n then some (n, rest2) else none
        else none
      | [] => none
    else if b < 240 then
      match rest with
      | b2 :: b3 :: rest3 =>
        if (128 ≤ b2 ∧ b2 < 192) ∧ (128 ≤ b3 ∧ b3 < 192) then
          let n := (b - 224) * 4096 + (b2 - 128) * 64 + (b3 - 128)
          if 2048 ≤ n ∧ ¬(55296 ≤ n ∧ n < 57344) then some (n, rest3) else none
        else none
      | _ => none
    else if b < 248 then
      match rest with
      | b2 :: b3 :: b4 :: rest4 =>
        if (128 ≤ b2 ∧ b2 < 192) ∧ (128 ≤ b3 ∧ b3 < 192) ∧ (128 ≤ b4 ∧ b4 < 192) then
          let n := (b - 240) * 262144 + (b2 - 128) * 4096 + (b3 - 128) * 64 + (b4 - 128)
          if 65536 ≤ n ∧ n < 1114112 then some (n, rest4) else none
        else none
      | _ => none
    else none

/-- Fuel-indexed decoding loop (the fuel is the byte count, and each
sequence consumes at least one byte). -/
def utf8DecodeLoop : Nat → List Nat → Option Str
  | _, [] => some []
  | 0, _ :: _ => none
  | Nat.succ fuel, b :: rest =>
    match utf8DecodeOne (b :: rest) with
    | some (n, rest2) => utf8Cont n (utf8DecodeLoop fuel rest2)
    | none => none

/-- `bytes.decode('utf8')`: strict UTF-8 decoding, rejecting stray
continuation bytes, truncated sequences, overlong encodings, surrogates and
out-of-range values. Returns `none` where Python raises
`UnicodeDecodeError` (a `ValueError`). -/
def utf8Decode (bytes : List Nat) : Option Str :=
  utf8DecodeLoop bytes.length bytes

/-- `str.encode('ascii')`: fails on any character above `U+007F`
(Python raises `UnicodeEncodeError`, a `ValueError`). -/
def asciiBytes (s : Str) : Option (List Nat) :=
  if s.all (fun c => c.toNat < 128) then some (s.map Char.toNat) else none

/-- The paginator's error taxonomy: `ValueError` from argument validation,
`InvalidCursor` from cursor decoding / application. -/
inductive PErr where
  | valueError : PErr
  | invalidCursor : PErr
deriving DecidableEq

/-- `CursorPaginator.delimiter`. -/
def delimiter : Char := '|'

/-- `CursorPaginator.none_string`. -/
def none_string : Str := [':', ':', 'N', 'o', 'n', 'e']

/-- `CursorPaginator.decode_cursor`: base64-decode the token, split on the
delimiter, map the null sentinel back to `none`; any `ValueError` in the
pipeline becomes `InvalidCursor`. -/
def decode_cursor (cursor : Str) : Except PErr (List (Option Str)) :=
  match asciiBytes cursor with
  | none => .error .invalidCursor
  | some bytes =>
    match pyB64Decode bytes with
    | none => .error .invalidCursor
    | some decoded =>
      match utf8Decode decoded with
      | none => .error .invalidCursor
      | some orderings =>
        .ok ((orderings.splitOn delimiter).map
          (fun o => if o = none_string then none else some o))

/-- `CursorPaginator.encode_cursor`: join on the delimiter, UTF-8 encode,
base64 encode (the result is ASCII). -/
def encode_cursor (position : List Str) : Str :=
  (b64encodeBytes (utf8Encode ([delimiter].intercalate position))).map Char.ofNat

/-- The string list built by `position_from_instance` from a tagged
position: a null entry becomes the `none_string` sentinel, a concrete string
value is kept (`str` of a string is itself). -/
def positionToStrings (position : List (Option Str)) : List Str :=
  position.map (fun v => match v with | none => none_string | some s => s)


/-! ### mongoengine `Q` objects and lookup-key parsing -/

def sfxLt : Str := ['_', '_', 'l', 't']
def sfxGt : Str := ['_', '_', 'g', 't']
def sfxNe : Str := ['_', '_', 'n', 'e']
def sfxExact : Str := ['_', '_', 'e', 'x', 'a', 'c', 't']

def endsW (sfx s : Str) : Bool := sfx.isSuffixOf s

def stripSfx (sfx s : Str) : Str := s.take (s.length - sfx.length)

/-- A field path that does not collide with a reserved mongoengine operator
suffix (such a path would not be resolvable as a document field). -/
def goodField (f : Str) : Bool :=
  !(endsW sfxLt f) && !(endsW sfxGt f) && !(endsW sfxNe f) && !(endsW sfxExact f)

/-- Evaluation of one keyword lookup `key=rhs` against a document, with
mongoengine's parsing of the operator suffix and MongoDB's matching rules:
`$lt` / `$gt` never match null, equality with `None` matches null/missing. -/
def evalLookup {V : Type} [LinearOrder V] (r : Doc V) (key : Str) (rhs : Option V) : Bool :=
  if endsW sfxLt key then
    match rhs, r (stripSfx sfxLt key) with
    | some v, some x => decide (x < v)
    | _, _ => false
  else if endsW sfxGt key then
    match rhs, r (stripSfx sfxGt key) with
    | some v, some x => decide (v < x)
    | _, _ => false
  else if endsW sfxNe key then decide (r (stripSfx sfxNe key) ≠ rhs)
  else if endsW sfxExact key then decide (r (stripSfx sfxExact key) = rhs)
  else decide (r key = rhs)

/-- A mongoengine `Q` object: the empty `Q()`, a keyword dictionary
`Q(**d)`, or a combination. -/
inductive QPred (V : Type) where
  | empty : QPred V
  | qdict : List (Str × Option V) → QPred V
  | qand : QPred V → QPred V → QPred V
  | qor : QPred V → QPred V → QPred V
deriving DecidableEq

/-- mongoengine `QNode._combine` with OR: an empty `Q()` on either side is
dropped rather than treated as a match-all disjunct. -/
def qcombineOr {V : Type} : QPred V → QPred V → QPred V
  | .empty, b => b
  | a, .empty => a
  | a, b => .qor a b

/-- mongoengine `QNode._combine` with AND. -/
def qcombineAnd {V : Type} : QPred V → QPred V → QPred V
  | .empty, b => b
  | a, .empty => a
  | a, b => .qand a b

/-- `Q(**d)`: an empty keyword dictionary gives the empty `Q()`. -/
def qofDict {V : Type} (d : List (Str × Option V)) : QPred V :=
  if d.isEmpty then .empty else .qdict d

def evalDict {V : Type} [LinearOrder V] (d : List (Str × Option V)) (r : Doc V) : Bool :=
  d.all (fun kv => evalLookup r kv.1 kv.2)

/-- Semantics of a `Q` object on one document. -/
def QPred.eval {V : Type} [LinearOrder V] : QPred V → Doc V → Bool
  | .empty, _ => true
  | .qdict d, r => evalDict d r
  | .qand a b, r => a.eval r && b.eval r
  | .qor a b, r => a.eval r || b.eval r

/-- Python `dict` assignment `d[k] = v`: replace in place or append. -/
def dictUpdate {V : Type} (d : List (Str × Option V)) (k : Str) (v : Option V) :
    List (Str × Option V) :=
  if d.any (fun kv => kv.1 = k) then
    d.map (fun kv => if kv.1 = k then (k, v) else kv)
  else d ++ [(k, v)]

/-- Python `d.update(upd)`: assign every pair of `upd` into `d` in order. -/
def dictMerge {V : Type} (d upd : List (Str × Option V)) : List (Str × Option V) :=
  upd.foldl (fun acc kv => dictUpdate acc kv.1 kv.2) d

/-! ### `apply_cursor`: the boundary-predicate construction -/

/-- The `for ordering, value in zip(self.ordering, position)` loop of
`CursorPaginator.apply_cursor`, with the running disjunction `filtering` and
the equality accumulator `q_equality`. -/
def applyCursorLoop {V : Type} [LinearOrder V] (nullable : Str → Bool) (reverse : Bool) :
    List Str → List (Option V) → List (Str × Option V) → QPred V →
      Except PErr (QPred V)
  | [], _, _, filtering => .ok filtering
  | _ :: _, [], _, filtering => .ok filtering
  | ordering :: os, value :: vs, q_equality, filtering =>
    let is_reversed := startsDash ordering
    let o := lstripDash ordering
    let field_is_nullable := nullable o
    match value with
    | none =>
      if field_is_nullable = false then .error .invalidCursor
      else
        let filtering' :=
          if reverse == is_reversed then
            qcombineOr filtering (qofDict (dictMerge [(o ++ sfxNe, none)] q_equality))
          else filtering
        applyCursorLoop nullable reverse os vs (dictUpdate q_equality o none) filtering'
    | some v =>
      let comparison_key := if reverse != is_reversed then o ++ sfxLt else o ++ sfxGt
      let q0 : QPred V := .qdict [(comparison_key, some v)]
      let q1 := if field_is_nullable && (reverse != is_reversed)
        then qcombineOr q0 (.qdict [(o, none)]) else q0
      let filtering' := qcombineOr filtering (qcombineAnd q1 (qofDict q_equality))
      applyCursorLoop nullable reverse os vs
        (dictUpdate q_equality (o ++ sfxExact) (some v)) filtering'

/-- The filter built by `apply_cursor` from an already-decoded position
(before it is installed on the queryset). -/
def applyCursorQ {V : Type} [LinearOrder V] (nullable : Str → Bool)
    (ordering : List Str) (position : List (Option V)) (reverse : Bool) :
    Except PErr (QPred V) :=
  applyCursorLoop nullable reverse ordering position [] .empty

/-! ### The order induced by a SortSpec (specification side) -/

/-- MongoDB's comparison of two optional field values: null sorts below
every concrete value. -/
def optCmp {V : Type} [LinearOrder V] : Option V → Option V → Ordering
  | none, none => .eq
  | none, some _ => .lt
  | some _, none => .gt
  | some a, some b => if a < b then .lt else if a = b then .eq else .gt

/-- Per-field comparison: a descending field flips the direction. -/
def fieldCmp {V : Type} [LinearOrder V] (desc : Bool) (x y : Option V) : Ordering :=
  if desc then optCmp y x else optCmp x y

/-- Lexicographic comparison of two tuples under a tuple of directions
(`true` = descending). -/
def tupleCmp {V : Type} [LinearOrder V] : List Bool → List (Option V) → List (Option V) → Ordering
  | d :: ds, x :: xs, y :: ys =>
    match fieldCmp d x y with
    | .eq => tupleCmp ds xs ys
    | c => c
  | _, _, _ => .eq

/-- The direction tuple of a SortSpec. -/
def dirs (ordering : List Str) : List Bool := ordering.map startsDash

/-- The sort-key tuple of a document under a SortSpec. -/
def docKey {V : Type} (ordering : List Str) (r : Doc V) : List (Option V) :=
  ordering.map (fun o => r (lstripDash o))

/-- Comparison of a document against a decoded cursor position in the order
induced by the SortSpec. -/
def docPosCmp {V : Type} [LinearOrder V] (ordering : List Str)
    (r : Doc V) (position : List (Option V)) : Ordering :=
  tupleCmp (dirs ordering) (docKey ordering r) position

/-! ### Helper lemmas for the boundary-predicate proof -/

/-- The contribution of a `Q` object used as an OR-accumulator: the initial
empty `Q()` contributes `false` (no branch yet), any other `Q` contributes
its evaluation. -/
def boolOf {V : Type} [LinearOrder V] (q : QPred V) (r : Doc V) : Bool :=
  if q = .empty then false else q.eval r

theorem qcombineAnd_eval {V : Type} [LinearOrder V] (a b : QPred V) (r : Doc V) :
    (qcombineAnd a b).eval r = (a.eval r && b.eval r) := by
  cases a <;> cases b <;> simp [qcombineAnd, QPred.eval]

theorem qcombineAnd_empty_left {V : Type} (b : QPred V) :
    qcombineAnd .empty b = b := by
  cases b <;> rfl

theorem qcombineAnd_ne_empty {V : Type} (a b : QPred V) (ha : a ≠ .empty) :
    qcombineAnd a b ≠ .empty := by
  cases a <;> cases b <;> simp_all [qcombineAnd]

theorem qcombineOr_ne_empty {V : Type} (a b : QPred V) (hb : b ≠ .empty) :
    qcombineOr a b ≠ .empty := by
  cases a <;> cases b <;> simp_all [qcombineOr]

theorem qcombineOr_boolOf {V : Type} [LinearOrder V] (a b : QPred V) (r : Doc V)
    (hb : b ≠ .empty) :
    boolOf (qcombineOr a b) r = (boolOf a r || b.eval r) := by
  cases a <;> cases b <;> simp_all [qcombineOr, boolOf, QPred.eval]

theorem qofDict_eval {V : Type} [LinearOrder V] (d : List (Str × Option V)) (r : Doc V) :
    (qofDict d).eval r = evalDict d r := by
  by_cases h : d.isEmpty
  · have : d = [] := List.isEmpty_iff.mp h
    subst this
    simp [qofDict, QPred.eval, evalDict]
  · simp [qofDict, h, QPred.eval]

theorem evalDict_append {V : Type} [LinearOrder V] (d1 d2 : List (Str × Option V)) (r : Doc V) :
    evalDict (d1 ++ d2) r = (evalDict d1 r && evalDict d2 r) := by
  simp [evalDict]

theorem evalDict_cons {V : Type} [LinearOrder V] (kv : Str × Option V)
    (d : List (Str × Option V)) (r : Doc V) :
    evalDict (kv :: d) r = (evalLookup r kv.1 kv.2 && evalDict d r) := by
  simp [evalDict]

theorem dictUpdate_append {V : Type} (d : List (Str × Option V)) (k : Str) (v : Option V)
    (h : ∀ kv ∈ d, kv.1 ≠ k) :
    dictUpdate d k v = d ++ [(k, v)] := by
  have : d.any (fun kv => kv.1 = k) = false := by
    simp only [List.any_eq_false]
    intro kv hkv
    simpa using h kv hkv
  simp [dictUpdate, this]

theorem dictMerge_append {V : Type} (d upd : List (Str × Option V))
    (hnd : (upd.map Prod.fst).Nodup)
    (hdisj : ∀ kv ∈ upd, ∀ kv2 ∈ d, kv.1 ≠ kv2.1) :
    dictMerge d upd = d ++ upd := by
  induction upd generalizing d with
  | nil => simp [dictMerge]
  | cons kv upd' ih =>
    have hndc := List.nodup_cons.mp hnd
    have hstep : dictUpdate d kv.1 kv.2 = d ++ [(kv.1, kv.2)] := by
      apply dictUpdate_append
      intro kv2 hkv2
      exact (hdisj kv (by simp) kv2 hkv2).symm
    have hnd' : (upd'.map Prod.fst).Nodup := hndc.2
    have hkvfresh : ∀ kv' ∈ upd', kv'.1 ≠ kv.1 := by
      intro kv' hkv' hh
      exact hndc.1 (hh ▸ List.mem_map_of_mem Prod.fst hkv')
    have hdisj' : ∀ kv' ∈ upd', ∀ kv2 ∈ d ++ [(kv.1, kv.2)], kv'.1 ≠ kv2.1 := by
      intro kv' hkv' kv2 hkv2
      rcases List.mem_append.mp hkv2 with h2 | h2
      · exact hdisj kv' (by simp [hkv']) kv2 h2
      · simp at h2
        subst h2
        exact hkvfresh kv' hkv'
    calc dictMerge d (kv :: upd')
        = dictMerge (dictUpdate d kv.1 kv.2) upd' := rfl
      _ = dictMerge (d ++ [(kv.1, kv.2)]) upd' := by rw [hstep]
      _ = (d ++ [(kv.1, kv.2)]) ++ upd' := ih _ hnd' hdisj'
      _ = d ++ kv :: upd' := by simp

theorem endsW_self_append (sfx f : Str) : endsW sfx (f ++ sfx) = true := by
  simp [endsW, List.isSuffixOf_iff_suffix]

theorem endsW_append_le (s1 s2 f : Str) (h : s1.length ≤ s2.length) :
    endsW s1 (f ++ s2) = endsW s1 s2 := by
  rw [Bool.eq_iff_iff]
  simp only [endsW, List.isSuffixOf_iff_suffix]
  constructor
  · intro hs
    rw [List.suffix_iff_eq_drop] at hs
    have hlen : (f ++ s2).length - s1.length = f.length + (s2.length - s1.length) := by
      simp only [List.length_append]
      omega
    rw [hs, hlen, ← List.drop_drop, List.drop_left]
    exact List.drop_suffix _ _
  · intro hs
    exact hs.trans (List.suffix_append f s2)

theorem stripSfx_self_append (sfx f : Str) : stripSfx sfx (f ++ sfx) = f := by
  simp only [stripSfx, List.length_append]
  have : f.length + sfx.length - sfx.length = f.length := by omega
  rw [this]
  exact List.take_left f sfx

theorem evalLookup_lt {V : Type} [LinearOrder V] (r : Doc V) (f : Str) (rhs : Option V) :
    evalLookup r (f ++ sfxLt) rhs =
      match rhs, r f with
      | some v, some x => decide (x < v)
      | _, _ => false := by
  simp [evalLookup, endsW_self_append, stripSfx_self_append]

theorem evalLookup_gt {V : Type} [LinearOrder V] (r : Doc V) (f : Str) (rhs : Option V) :
    evalLookup r (f ++ sfxGt) rhs =
      match rhs, r f with
      | some v, some x => decide (v < x)
      | _, _ => false := by
  have h1 : endsW sfxLt (f ++ sfxGt) = false := by
    rw [endsW_append_le _ _ _ (by decide)]; decide
  simp [evalLookup, h1, endsW_self_append, stripSfx_self_append]

theorem evalLookup_ne {V : Type} [LinearOrder V] (r : Doc V) (f : Str) (rhs : Option V) :
    evalLookup r (f ++ sfxNe) rhs = decide (r f ≠ rhs) := by
  have h1 : endsW sfxLt (f ++ sfxNe) = false := by
    rw [endsW_append_le _ _ _ (by decide)]; decide
  have h2 : endsW sfxGt (f ++ sfxNe) = false := by
    rw [endsW_append_le _ _ _ (by decide)]; decide
  simp [evalLookup, h1, h2, endsW_self_append, stripSfx_self_append]

theorem evalLookup_exact {V : Type} [LinearOrder V] (r : Doc V) (f : Str) (rhs : Option V) :
    evalLookup r (f ++ sfxExact) rhs = decide (r f = rhs) := by
  have h1 : endsW sfxLt (f ++ sfxExact) = false := by
    rw [endsW_append_le _ _ _ (by decide)]; decide
  have h2 : endsW sfxGt (f ++ sfxExact) = false := by
    rw [endsW_append_le _ _ _ (by decide)]; decide
  have h3 : endsW sfxNe (f ++ sfxExact) = false := by
    rw [endsW_append_le _ _ _ (by decide)]; decide
  simp [evalLookup, h1, h2, h3, endsW_self_append, stripSfx_self_append]

theorem evalLookup_plain {V : Type} [LinearOrder V] (r : Doc V) (f : Str) (rhs : Option V)
    (h : goodField f = true) :
    evalLookup r f rhs = decide (r f = rhs) := by
  simp only [goodField, Bool.and_eq_true, Bool.not_eq_true'] at h
  simp [evalLookup, h.1.1.1, h.1.1.2, h.1.2, h.2]

/-! Key-string disambiguation: distinct generated lookup keys are distinct
strings. -/

theorem key_plain_ne_exact (f f' : Str) (h : goodField f = true) : f ≠ f' ++ sfxExact := by
  intro he
  have := endsW_self_append sfxExact f'
  rw [← he] at this
  simp only [goodField, Bool.and_eq_true, Bool.not_eq_true'] at h
  rw [h.2] at this
  exact Bool.false_ne_true this

theorem key_plain_ne_ne (f f' : Str) (h : goodField f = true) : f ≠ f' ++ sfxNe := by
  intro he
  have := endsW_self_append sfxNe f'
  rw [← he] at this
  simp only [goodField, Bool.and_eq_true, Bool.not_eq_true'] at h
  rw [h.1.2] at this
  exact Bool.false_ne_true this

theorem key_exact_ne_ne (f f' : Str) : f ++ sfxExact ≠ f' ++ sfxNe := by
  intro he
  have h1 : endsW sfxNe (f ++ sfxExact) = false := by
    rw [endsW_append_le _ _ _ (by decide)]; decide
  have h2 := endsW_self_append sfxNe f'
  rw [← he] at h2
  rw [h1] at h2
  exact Bool.false_ne_true h2

theorem key_exact_inj (f f' : Str) (h : f ++ sfxExact = f' ++ sfxExact) : f = f' :=
  List.append_cancel_right h

theorem key_plain_ne_append (f f' sfx : Str) (hs : sfx ≠ []) : f' ++ sfx ≠ f' := by
  intro he
  have := congrArg List.length he
  simp [List.length_append] at this
  exact hs this

/-! ### Basic properties of the SortSpec order -/

theorem optCmp_ss_lt {V : Type} [LinearOrder V] {a b : V} (h : a < b) :
    optCmp (some a) (some b) = .lt := by
  simp [optCmp, h]

theorem optCmp_ss_gt {V : Type} [LinearOrder V] {a b : V} (h : b < a) :
    optCmp (some a) (some b) = .gt := by
  have h1 : ¬a < b := not_lt_of_gt h
  have h2 : a ≠ b := ne_of_gt h
  simp [optCmp, h1, h2]

theorem optCmp_ss_eq {V : Type} [LinearOrder V] {a b : V} (h : a = b) :
    optCmp (some a) (some b) = .eq := by
  subst h
  simp [optCmp, lt_irrefl]

theorem optCmp_eq_iff {V : Type} [LinearOrder V] (x y : Option V) :
    optCmp x y = .eq ↔ x = y := by
  cases x with
  | none => cases y <;> simp [optCmp]
  | some a =>
    cases y with
    | none => simp [optCmp]
    | some b =>
      constructor
      · intro h
        rcases lt_trichotomy a b with ht | ht | ht
        · rw [optCmp_ss_lt ht] at h; exact absurd h (by simp)
        · rw [ht]
        · rw [optCmp_ss_gt ht] at h; exact absurd h (by simp)
      · intro h
        rw [Option.some_inj] at h
        exact optCmp_ss_eq h

theorem optCmp_self {V : Type} [LinearOrder V] (x : Option V) : optCmp x x = .eq :=
  (optCmp_eq_iff x x).mpr rfl

theorem optCmp_swap {V : Type} [LinearOrder V] (x y : Option V) :
    optCmp y x = (optCmp x y).swap := by
  cases x with
  | none => cases y <;> simp [optCmp, Ordering.swap]
  | some a =>
    cases y with
    | none => simp [optCmp, Ordering.swap]
    | some b =>
      rcases lt_trichotomy a b with ht | ht | ht
      · rw [optCmp_ss_lt ht, optCmp_ss_gt ht]; rfl
      · rw [optCmp_ss_eq ht, optCmp_ss_eq ht.symm]; rfl
      · rw [optCmp_ss_gt ht, optCmp_ss_lt ht]; rfl

theorem optCmp_lt_trans {V : Type} [LinearOrder V] {x y z : Option V}
    (h1 : optCmp x y = .lt) (h2 : optCmp y z = .lt) : optCmp x z = .lt := by
  cases x with
  | none =>
    cases z with
    | none =>
      cases y with
      | none => exact h1
      | some b => exact absurd h2 (by simp [optCmp])
    | some c => simp [optCmp]
  | some a =>
    cases y with
    | none => exact absurd h1 (by simp [optCmp])
    | some b =>
      cases z with
      | none => exact absurd h2 (by simp [optCmp])
      | some c =>
        have hab : a < b := by
          rcases lt_trichotomy a b with ht | ht | ht
          · exact ht
          · rw [optCmp_ss_eq ht] at h1; exact absurd h1 (by simp)
          · rw [optCmp_ss_gt ht] at h1; exact absurd h1 (by simp)
        have hbc : b < c := by
          rcases lt_trichotomy b c with ht | ht | ht
          · exact ht
          · rw [optCmp_ss_eq ht] at h2; exact absurd h2 (by simp)
          · rw [optCmp_ss_gt ht] at h2; exact absurd h2 (by simp)
        exact optCmp_ss_lt (lt_trans hab hbc)

theorem fieldCmp_false {V : Type} [LinearOrder V] (x y : Option V) :
    fieldCmp false x y = optCmp x y := by
  simp [fieldCmp]

theorem fieldCmp_true {V : Type} [LinearOrder V] (x y : Option V) :
    fieldCmp true x y = optCmp y x := by
  simp [fieldCmp]

theorem fieldCmp_eq_iff {V : Type} [LinearOrder V] (d : Bool) (x y : Option V) :
    fieldCmp d x y = .eq ↔ x = y := by
  cases d
  · rw [fieldCmp_false, optCmp_eq_iff]
  · rw [fieldCmp_true, optCmp_eq_iff]
    exact eq_comm

theorem fieldCmp_swap {V : Type} [LinearOrder V] (d : Bool) (x y : Option V) :
    fieldCmp d y x = (fieldCmp d x y).swap := by
  cases d
  · rw [fieldCmp_false, fieldCmp_false]
    exact optCmp_swap x y
  · rw [fieldCmp_true, fieldCmp_true]
    exact optCmp_swap y x

theorem fieldCmp_not {V : Type} [LinearOrder V] (d : Bool) (x y : Option V) :
    fieldCmp (!d) x y = (fieldCmp d x y).swap := by
  cases d
  · rw [show (!false) = true from rfl, fieldCmp_true, fieldCmp_false]
    exact optCmp_swap x y
  · rw [show (!true) = false from rfl, fieldCmp_false, fieldCmp_true]
    exact optCmp_swap y x

theorem fieldCmp_lt_trans {V : Type} [LinearOrder V] {d : Bool} {x y z : Option V}
    (h1 : fieldCmp d x y = .lt) (h2 : fieldCmp d y z = .lt) : fieldCmp d x z = .lt := by
  cases d
  · rw [fieldCmp_false] at *
    exact optCmp_lt_trans h1 h2
  · rw [fieldCmp_true] at *
    exact optCmp_lt_trans h2 h1

theorem tupleCmp_nil_ds {V : Type} [LinearOrder V] (xs ys : List (Option V)) :
    tupleCmp [] xs ys = .eq := by
  cases xs <;> cases ys <;> rfl

theorem tupleCmp_nil_xs {V : Type} [LinearOrder V] (ds : List Bool) (ys : List (Option V)) :
    tupleCmp ds [] ys = .eq := by
  cases ds <;> cases ys <;> rfl

theorem tupleCmp_nil_ys {V : Type} [LinearOrder V] (ds : List Bool) (xs : List (Option V)) :
    tupleCmp ds xs [] = .eq := by
  cases ds <;> cases xs <;> rfl

theorem tupleCmp_cons {V : Type} [LinearOrder V] (d : Bool) (ds : List Bool)
    (x y : Option V) (xs ys : List (Option V)) :
    tupleCmp (d :: ds) (x :: xs) (y :: ys) =
      match fieldCmp d x y with
      | .eq => tupleCmp ds xs ys
      | c => c := rfl

theorem tupleCmp_swap {V : Type} [LinearOrder V] :
    ∀ (ds : List Bool) (xs ys : List (Option V)),
      tupleCmp ds ys xs = (tupleCmp ds xs ys).swap := by
  intro ds
  induction ds with
  | nil =>
    intro xs ys
    rw [tupleCmp_nil_ds (V := V) ys xs, tupleCmp_nil_ds (V := V) xs ys]
    rfl
  | cons d ds ih =>
    intro xs ys
    cases xs with
    | nil =>
      rw [tupleCmp_nil_xs, tupleCmp_nil_ys]
      rfl
    | cons x xs' =>
      cases ys with
      | nil =>
        rw [tupleCmp_nil_xs, tupleCmp_nil_ys]
        rfl
      | cons y ys' =>
        rw [tupleCmp_cons, tupleCmp_cons, fieldCmp_swap]
        cases fieldCmp d x y with
        | eq => exact ih xs' ys'
        | lt => rfl
        | gt => rfl

theorem tupleCmp_not {V : Type} [LinearOrder V] :
    ∀ (ds : List Bool) (xs ys : List (Option V)),
      tupleCmp (ds.map (fun b => !b)) xs ys = (tupleCmp ds xs ys).swap := by
  intro ds
  induction ds with
  | nil =>
    intro xs ys
    rw [List.map_nil, tupleCmp_nil_ds (V := V) xs ys]
    rfl
  | cons d ds ih =>
    intro xs ys
    cases xs with
    | nil =>
      rw [tupleCmp_nil_xs, tupleCmp_nil_xs]
      rfl
    | cons x xs' =>
      cases ys with
      | nil =>
        rw [tupleCmp_nil_ys, tupleCmp_nil_ys]
        rfl
      | cons y ys' =>
        rw [List.map_cons, tupleCmp_cons, tupleCmp_cons, fieldCmp_not]
        cases fieldCmp d x y with
        | eq => exact ih xs' ys'
        | lt => rfl
        | gt => rfl

theorem tupleCmp_eq_iff {V : Type} [LinearOrder V] :
    ∀ (ds : List Bool) (xs ys : List (Option V)),
      xs.length ≤ ds.length → xs.length = ys.length →
      (tupleCmp ds xs ys = .eq ↔ xs = ys) := by
  intro ds
  induction ds with
  | nil =>
    intro xs ys h1 h2
    rw [tupleCmp_nil_ds]
    have hx : xs = [] := List.eq_nil_of_length_eq_zero (by simpa using h1)
    have hy : ys = [] := List.eq_nil_of_length_eq_zero (by rw [← h2, hx]; rfl)
    simp [hx, hy]
  | cons d ds ih =>
    intro xs ys h1 h2
    cases xs with
    | nil =>
      have hy : ys = [] := List.eq_nil_of_length_eq_zero (by simpa using h2.symm)
      simp [hy, tupleCmp_nil_xs]
    | cons x xs' =>
      cases ys with
      | nil => exact absurd h2 (by simp)
      | cons y ys' =>
        rw [tupleCmp_cons]
        cases hf : fieldCmp d x y with
        | eq =>
          have hxy : x = y := (fieldCmp_eq_iff d x y).mp hf
          subst hxy
          rw [ih xs' ys' (by simpa using h1) (by simpa using h2)]
          simp
        | lt =>
          constructor
          · intro hc; exact absurd hc (by simp)
          · intro hc
            have : x = y := by
              have := List.cons.injEq x xs' y ys' ▸ hc
              exact (List.cons.inj hc).1
            rw [(fieldCmp_eq_iff d x y).mpr this] at hf
            exact absurd hf (by simp)
        | gt =>
          constructor
          · intro hc; exact absurd hc (by simp)
          · intro hc
            have : x = y := (List.cons.inj hc).1
            rw [(fieldCmp_eq_iff d x y).mpr this] at hf
            exact absurd hf (by simp)

theorem tupleCmp_lt_trans {V : Type} [LinearOrder V] :
    ∀ (ds : List Bool) (xs ys zs : List (Option V)),
      ys.length = xs.length → zs.length = xs.length →
      tupleCmp ds xs ys = .lt → tupleCmp ds ys zs = .lt → tupleCmp ds xs zs = .lt := by
  intro ds
  induction ds with
  | nil => intro xs ys zs _ _ h1 _; rw [tupleCmp_nil_ds] at h1; exact absurd h1 (by simp)
  | cons d ds ih =>
    intro xs ys zs hl1 hl2 h1 h2
    cases xs with
    | nil => rw [tupleCmp_nil_xs] at h1; exact absurd h1 (by simp)
    | cons x xs' =>
      cases ys with
      | nil => exact absurd hl1 (by simp)
      | cons y ys' =>
        cases zs with
        | nil => exact absurd hl2 (by simp)
        | cons z zs' =>
          rw [tupleCmp_cons] at h1 h2 ⊢
          cases hf1 : fieldCmp d x y with
          | gt => rw [hf1] at h1; exact absurd h1 (by simp)
          | eq =>
            have hxy : x = y := (fieldCmp_eq_iff d x y).mp hf1
            subst hxy
            rw [hf1] at h1
            cases hf2 : fieldCmp d x z with
            | gt => rw [hf2] at h2; exact absurd h2 (by simp)
            | lt => rfl
            | eq =>
              rw [hf2] at h2
              exact ih xs' ys' zs' (by simpa using hl1) (by simpa using hl2) h1 h2
          | lt =>
            cases hf2 : fieldCmp d y z with
            | gt => rw [hf2] at h2; exact absurd h2 (by simp)
            | eq =>
              have hyz : y = z := (fieldCmp_eq_iff d y z).mp hf2
              subst hyz
              rw [hf1]
            | lt =>
              rw [fieldCmp_lt_trans hf1 hf2]

theorem tupleCmp_lt_of_lt_of_le {V : Type} [LinearOrder V]
    (ds : List Bool) (xs ys zs : List (Option V))
    (hl1 : ys.length = xs.length) (hl2 : zs.length = xs.length) (hd : ys.length ≤ ds.length)
    (h1 : tupleCmp ds xs ys = .lt) (h2 : tupleCmp ds ys zs ≠ .gt) :
    tupleCmp ds xs zs = .lt := by
  cases hc : tupleCmp ds ys zs with
  | gt => exact absurd hc h2
  | lt => exact tupleCmp_lt_trans ds xs ys zs hl1 hl2 h1 hc
  | eq =>
    have := (tupleCmp_eq_iff ds ys zs hd (by omega)).mp hc
    rw [← this]
    exact h1

theorem tupleCmp_lt_of_le_of_lt {V : Type} [LinearOrder V]
    (ds : List Bool) (xs ys zs : List (Option V))
    (hl1 : ys.length = xs.length) (hl2 : zs.length = xs.length) (hd : xs.length ≤ ds.length)
    (h1 : tupleCmp ds xs ys ≠ .gt) (h2 : tupleCmp ds ys zs = .lt) :
    tupleCmp ds xs zs = .lt := by
  cases hc : tupleCmp ds xs ys with
  | gt => exact absurd hc h1
  | lt => exact tupleCmp_lt_trans ds xs ys zs hl1 hl2 hc h2
  | eq =>
    have := (tupleCmp_eq_iff ds xs ys hd (by omega)).mp hc
    rw [this]
    exact h2

theorem tupleCmp_ne_gt_trans {V : Type} [LinearOrder V]
    (ds : List Bool) (xs ys zs : List (Option V))
    (hl1 : ys.length = xs.length) (hl2 : zs.length = xs.length) (hd : xs.length ≤ ds.length)
    (h1 : tupleCmp ds xs ys ≠ .gt) (h2 : tupleCmp ds ys zs ≠ .gt) :
    tupleCmp ds xs zs ≠ .gt := by
  cases hc : tupleCmp ds xs ys with
  | gt => exact absurd hc h1
  | lt =>
    have := tupleCmp_lt_of_lt_of_le ds xs ys zs hl1 hl2 (by omega) hc h2
    simp [this]
  | eq =>
    have := (tupleCmp_eq_iff ds xs ys hd (by omega)).mp hc
    rw [this]
    exact h2

@[simp] theorem optCmp_none_none {V : Type} [LinearOrder V] :
    optCmp (none : Option V) none = .eq := rfl

@[simp] theorem optCmp_none_some {V : Type} [LinearOrder V] (b : V) :
    optCmp none (some b) = .lt := rfl

@[simp] theorem optCmp_some_none {V : Type} [LinearOrder V] (a : V) :
    optCmp (some a) none = .gt := rfl

theorem optCmp_lt_decide {V : Type} [LinearOrder V] (a b : V) :
    decide (optCmp (some a) (some b) = .lt) = decide (a < b) := by
  rcases lt_trichotomy a b with h | h | h
  · rw [optCmp_ss_lt h]
    simp [h]
  · rw [optCmp_ss_eq h]
    subst h
    simp [lt_irrefl]
  · rw [optCmp_ss_gt h]
    simp [not_lt_of_gt h]

theorem optCmp_gt_decide {V : Type} [LinearOrder V] (a b : V) :
    decide (optCmp (some a) (some b) = .gt) = decide (b < a) := by
  rcases lt_trichotomy a b with h | h | h
  · rw [optCmp_ss_lt h]
    simp [not_lt_of_gt h]
  · rw [optCmp_ss_eq h]
    subst h
    simp [lt_irrefl]
  · rw [optCmp_ss_gt h]
    simp [h]

/-- The per-field branch built for a null cursor value when the traversal
direction agrees with the field direction matches the strict head
comparison. -/
theorem branch_null_emit {V : Type} [LinearOrder V] (reverse d : Bool) (x : Option V)
    (h : (reverse == d) = true) :
    decide (fieldCmp d x none = (if reverse then Ordering.lt else Ordering.gt)) =
      decide (x ≠ none) := by
  cases reverse <;> cases d <;> simp_all <;> cases x <;>
    simp [fieldCmp_false, fieldCmp_true]

/-- For a null cursor value with mismatched directions no record is strictly
beyond the cursor at this field. -/
theorem branch_null_miss {V : Type} [LinearOrder V] (reverse d : Bool) (x : Option V)
    (h : (reverse == d) = false) :
    decide (fieldCmp d x none = (if reverse then Ordering.lt else Ordering.gt)) = false := by
  cases reverse <;> cases d <;> simp_all <;> cases x <;>
    simp [fieldCmp_false, fieldCmp_true]

theorem head_eq_decide {V : Type} [LinearOrder V] (d : Bool) (x y : Option V) :
    decide (fieldCmp d x y = .eq) = decide (x = y) :=
  decide_eq_decide.mpr (fieldCmp_eq_iff d x y)

/-- The value of a `__lt` (`isLt = true`) or `__gt` comparison lookup on a
field holding `x`, against the concrete query value `v`. -/
def cmpLookupVal {V : Type} [LinearOrder V] (x : Option V) (v : V) (isLt : Bool) : Bool :=
  match x with
  | some xx => if isLt then decide (xx < v) else decide (v < xx)
  | none => false

/-- The per-field branch built for a concrete cursor value matches the
strict head comparison (for records whose null fields are nullable). -/
theorem branch_some_eq_head {V : Type} [LinearOrder V] (reverse d nb : Bool)
    (x : Option V) (v : V) (hx : x = none → nb = true) :
    (cmpLookupVal x v (reverse != d) ||
      ((nb && (reverse != d)) && decide (x = none)))
    = decide (fieldCmp d x (some v) = (if reverse then Ordering.lt else Ordering.gt)) := by
  cases x with
  | none =>
    have hnb : nb = true := hx rfl
    subst hnb
    cases reverse <;> cases d <;>
      simp [cmpLookupVal, fieldCmp_false, fieldCmp_true]
  | some xx =>
    cases reverse <;> cases d <;>
      simp [cmpLookupVal, fieldCmp_false, fieldCmp_true, optCmp_lt_decide, optCmp_gt_decide]

theorem qofDict_ne_empty {V : Type} (d : List (Str × Option V)) (h : d ≠ []) :
    qofDict d ≠ .empty := by
  have : d.isEmpty = false := by
    cases d
    · exact absurd rfl h
    · rfl
  simp [qofDict, this]

theorem qcombineOr_eval_ne {V : Type} [LinearOrder V] (a b : QPred V) (r : Doc V)
    (ha : a ≠ .empty) (hb : b ≠ .empty) :
    (qcombineOr a b).eval r = (a.eval r || b.eval r) := by
  cases a <;> cases b <;> simp_all [qcombineOr, QPred.eval]

theorem tupleCmp_cons_decide {V : Type} [LinearOrder V] (reverse : Bool) (d : Bool)
    (ds : List Bool) (x y : Option V) (xs ys : List (Option V)) :
    decide (tupleCmp (d :: ds) (x :: xs) (y :: ys) =
        (if reverse then Ordering.lt else Ordering.gt)) =
      (decide (fieldCmp d x y = (if reverse then Ordering.lt else Ordering.gt)) ||
        (decide (fieldCmp d x y = .eq) &&
          decide (tupleCmp ds xs ys = (if reverse then Ordering.lt else Ordering.gt)))) := by
  rw [tupleCmp_cons]
  cases hf : fieldCmp d x y <;> cases reverse <;> simp

/-- Evaluation of the branch `q1` built for a concrete cursor value. -/
theorem q1_eval_eq {V : Type} [LinearOrder V] (r : Doc V) (reverse dO nb : Bool)
    (o : Str) (v0 : V) (hgo : goodField o = true) :
    (if nb && (reverse != dO) then
       qcombineOr (.qdict [((if reverse != dO then o ++ sfxLt else o ++ sfxGt), some v0)])
         (.qdict [(o, none)])
     else .qdict [((if reverse != dO then o ++ sfxLt else o ++ sfxGt), some v0)]).eval r
    = (cmpLookupVal (r o) v0 (reverse != dO) ||
      ((nb && (reverse != dO)) && decide (r o = none))) := by
  cases hb : (reverse != dO) <;> cases hnb : nb <;>
    simp [qcombineOr, QPred.eval, evalDict, evalLookup_lt, evalLookup_gt,
      evalLookup_plain r o _ hgo, cmpLookupVal] <;>
    cases r o <;> rfl

theorem applyCursorLoop_boolOf {V : Type} [LinearOrder V] (nullable : Str → Bool)
    (reverse : Bool) (r : Doc V) (hr : ∀ f, r f = none → nullable f = true) :
    ∀ (os : List Str) (vs : List (Option V)) (qEq : List (Str × Option V))
      (filtering res : QPred V),
      vs.length = os.length →
      (os.map lstripDash).Nodup →
      (∀ o ∈ os, goodField (lstripDash o) = true) →
      (∀ kv ∈ qEq, ∃ f, (kv.1 = f ∨ kv.1 = f ++ sfxExact) ∧ goodField f = true ∧
        ∀ o ∈ os, f ≠ lstripDash o) →
      (qEq.map Prod.fst).Nodup →
      applyCursorLoop nullable reverse os vs qEq filtering = .ok res →
      boolOf res r = (boolOf filtering r || (evalDict qEq r &&
        decide (tupleCmp (dirs os) (docKey os r) vs =
          (if reverse then Ordering.lt else Ordering.gt)))) := by
  intro os
  induction os with
  | nil =>
    intro vs qEq filtering res _ _ _ _ _ hrun
    simp only [applyCursorLoop] at hrun
    injection hrun with hres
    subst hres
    have hnil : tupleCmp (dirs ([] : List Str)) (docKey ([] : List Str) r) vs =
        Ordering.eq := by
      rw [show dirs ([] : List Str) = [] from rfl]
      exact tupleCmp_nil_ds _ _
    rw [hnil]
    cases reverse <;> simp
  | cons ord os' ih =>
    intro vs qEq filtering res hlen hnodup hgood hinv hknd hrun
    cases vs with
    | nil => simp at hlen
    | cons v vs' =>
      have hlen' : vs'.length = os'.length := by simpa using hlen
      have hnodup' : (os'.map lstripDash).Nodup := (List.nodup_cons.mp (by simpa using hnodup)).2
      have hheadnotin : lstripDash ord ∉ os'.map lstripDash :=
        (List.nodup_cons.mp (by simpa using hnodup)).1
      have hgoodo : goodField (lstripDash ord) = true := hgood ord (by simp)
      have hgood' : ∀ o ∈ os', goodField (lstripDash o) = true :=
        fun o ho => hgood o (by simp [ho])
      have hkeyne : ∀ kv ∈ qEq, kv.1 ≠ lstripDash ord ∧
          kv.1 ≠ lstripDash ord ++ sfxExact ∧ kv.1 ≠ lstripDash ord ++ sfxNe := by
        intro kv hkv
        obtain ⟨f, hform, hgf, hfno⟩ := hinv kv hkv
        have hfo : f ≠ lstripDash ord := hfno ord (by simp)
        rcases hform with hpl | hex
        · refine ⟨?_, ?_, ?_⟩
          · rw [hpl]; exact hfo
          · rw [hpl]; exact key_plain_ne_exact f (lstripDash ord) hgf
          · rw [hpl]; exact key_plain_ne_ne f (lstripDash ord) hgf
        · refine ⟨?_, ?_, ?_⟩
          · rw [hex]
            exact fun hh => key_plain_ne_exact (lstripDash ord) f hgoodo hh.symm
          · rw [hex]
            exact fun hh => hfo (key_exact_inj f (lstripDash ord) hh)
          · rw [hex]; exact key_exact_ne_ne f (lstripDash ord)
      have hheadconsdirs : dirs (ord :: os') = startsDash ord :: dirs os' := rfl
      have hheadconskey : docKey (ord :: os') r = r (lstripDash ord) :: docKey os' r := rfl
      cases v with
      | none =>
        simp only [applyCursorLoop] at hrun
        by_cases hnl : nullable (lstripDash ord) = false
        · rw [if_pos hnl] at hrun
          exact absurd hrun (by simp)
        · rw [if_neg hnl] at hrun
          have hupd : dictUpdate qEq (lstripDash ord) none =
              qEq ++ [(lstripDash ord, none)] :=
            dictUpdate_append _ _ _ (fun kv hkv => (hkeyne kv hkv).1)
          rw [hupd] at hrun
          have hinv' : ∀ kv ∈ qEq ++ [(lstripDash ord, none)], ∃ f,
              (kv.1 = f ∨ kv.1 = f ++ sfxExact) ∧ goodField f = true ∧
                ∀ o ∈ os', f ≠ lstripDash o := by
            intro kv hkv
            rcases List.mem_append.mp hkv with hmem | hmem
            · obtain ⟨f, hform, hgf, hfno⟩ := hinv kv hmem
              exact ⟨f, hform, hgf, fun o ho => hfno o (by simp [ho])⟩
            · simp only [List.mem_singleton] at hmem
              subst hmem
              refine ⟨lstripDash ord, Or.inl rfl, hgoodo, ?_⟩
              intro o ho hh
              exact hheadnotin (hh ▸ List.mem_map_of_mem lstripDash ho)
          have hknd' : ((qEq ++ [(lstripDash ord, none)]).map Prod.fst).Nodup := by
            rw [List.map_append]
            rw [List.nodup_append]
            refine ⟨hknd, by simp, ?_⟩
            intro a ha hb
            simp only [List.map_cons, List.map_nil, List.mem_singleton] at hb
            subst hb
            obtain ⟨kv, hkv, hkv1⟩ := List.mem_map.mp ha
            exact (hkeyne kv hkv).1 hkv1
          by_cases hrb : (reverse == startsDash ord) = true
          · rw [if_pos hrb] at hrun
            have hmerge : dictMerge [(lstripDash ord ++ sfxNe, none)] qEq =
                (lstripDash ord ++ sfxNe, none) :: qEq := by
              have hd := dictMerge_append [(lstripDash ord ++ sfxNe, none)] qEq hknd ?_
              · simpa using hd
              · intro kv hkv kv2 hkv2
                simp only [List.mem_singleton] at hkv2
                subst hkv2
                exact (hkeyne kv hkv).2.2
            rw [hmerge] at hrun
            have hIH := ih vs' (qEq ++ [(lstripDash ord, none)])
              (qcombineOr filtering (qofDict ((lstripDash ord ++ sfxNe, none) :: qEq)))
              res hlen' hnodup' hgood' hinv' hknd' hrun
            rw [hIH]
            rw [qcombineOr_boolOf _ _ _ (qofDict_ne_empty _ (by simp))]
            rw [qofDict_eval]
            rw [evalDict_cons]
            rw [evalLookup_ne]
            rw [evalDict_append]
            have hsing : evalDict [(lstripDash ord, none)] r =
                decide (r (lstripDash ord) = none) := by
              simp [evalDict, evalLookup_plain r _ _ hgoodo]
            rw [hsing]
            rw [hheadconsdirs, hheadconskey, tupleCmp_cons_decide]
            rw [branch_null_emit reverse (startsDash ord) (r (lstripDash ord)) hrb]
            rw [head_eq_decide]
            rw [show (decide (r (lstripDash ord) ≠ none)) =
              !(decide (r (lstripDash ord) = none)) by simp]
            generalize boolOf filtering r = A
            generalize evalDict qEq r = E
            generalize decide (r (lstripDash ord) = none) = M
            generalize decide (tupleCmp (dirs os') (docKey os' r) vs' =
              (if reverse then Ordering.lt else Ordering.gt)) = T
            cases A <;> cases E <;> cases M <;> cases T <;> rfl
          · rw [if_neg hrb] at hrun
            have hrbf : (reverse == startsDash ord) = false := by
              cases hcc : (reverse == startsDash ord)
              · rfl
              · exact absurd hcc hrb
            have hIH := ih vs' (qEq ++ [(lstripDash ord, none)]) filtering
              res hlen' hnodup' hgood' hinv' hknd' hrun
            rw [hIH]
            rw [evalDict_append]
            have hsing : evalDict [(lstripDash ord, none)] r =
                decide (r (lstripDash ord) = none) := by
              simp [evalDict, evalLookup_plain r _ _ hgoodo]
            rw [hsing]
            rw [hheadconsdirs, hheadconskey, tupleCmp_cons_decide]
            rw [branch_null_miss reverse (startsDash ord) (r (lstripDash ord)) hrbf]
            rw [head_eq_decide]
            generalize boolOf filtering r = A
            generalize evalDict qEq r = E
            generalize decide (r (lstripDash ord) = none) = M
            generalize decide (tupleCmp (dirs os') (docKey os' r) vs' =
              (if reverse then Ordering.lt else Ordering.gt)) = T
            cases A <;> cases E <;> cases M <;> cases T <;> rfl
      | some v0 =>
        simp only [applyCursorLoop] at hrun
        have hupd : dictUpdate qEq (lstripDash ord ++ sfxExact) (some v0) =
            qEq ++ [(lstripDash ord ++ sfxExact, some v0)] :=
          dictUpdate_append _ _ _ (fun kv hkv => (hkeyne kv hkv).2.1)
        rw [hupd] at hrun
        have hinv' : ∀ kv ∈ qEq ++ [(lstripDash ord ++ sfxExact, some v0)], ∃ f,
            (kv.1 = f ∨ kv.1 = f ++ sfxExact) ∧ goodField f = true ∧
              ∀ o ∈ os', f ≠ lstripDash o := by
          intro kv hkv
          rcases List.mem_append.mp hkv with hmem | hmem
          · obtain ⟨f, hform, hgf, hfno⟩ := hinv kv hmem
            exact ⟨f, hform, hgf, fun o ho => hfno o (by simp [ho])⟩
          · simp only [List.mem_singleton] at hmem
            subst hmem
            refine ⟨lstripDash ord, Or.inr rfl, hgoodo, ?_⟩
            intro o ho hh
            exact hheadnotin (hh ▸ List.mem_map_of_mem lstripDash ho)
        have hknd' : ((qEq ++ [(lstripDash ord ++ sfxExact, some v0)]).map Prod.fst).Nodup := by
          rw [List.map_append, List.nodup_append]
          refine ⟨hknd, by simp, ?_⟩
          intro a ha hb
          simp only [List.map_cons, List.map_nil, List.mem_singleton] at hb
          subst hb
          obtain ⟨kv, hkv, hkv1⟩ := List.mem_map.mp ha
          exact (hkeyne kv hkv).2.1 hkv1
        have hIH := ih vs' (qEq ++ [(lstripDash ord ++ sfxExact, some v0)])
          (qcombineOr filtering (qcombineAnd
            (if nullable (lstripDash ord) && (reverse != startsDash ord) then
              qcombineOr
                (.qdict [((if reverse != startsDash ord then lstripDash ord ++ sfxLt
                  else lstripDash ord ++ sfxGt), some v0)])
                (.qdict [(lstripDash ord, none)])
            else .qdict [((if reverse != startsDash ord then lstripDash ord ++ sfxLt
              else lstripDash ord ++ sfxGt), some v0)])
            (qofDict qEq)))
          res hlen' hnodup' hgood' hinv' hknd' hrun
        rw [hIH]
        have hq1ne : (if nullable (lstripDash ord) && (reverse != startsDash ord) then
              qcombineOr
                (.qdict [((if reverse != startsDash ord then lstripDash ord ++ sfxLt
                  else lstripDash ord ++ sfxGt), some v0)])
                (.qdict [(lstripDash ord, none)])
            else .qdict [((if reverse != startsDash ord then lstripDash ord ++ sfxLt
              else lstripDash ord ++ sfxGt), some v0)]) ≠ QPred.empty := by
          by_cases hc : (nullable (lstripDash ord) && (reverse != startsDash ord)) = true
          · rw [if_pos hc]
            exact qcombineOr_ne_empty _ _ (by simp)
          · rw [if_neg hc]
            simp
        rw [qcombineOr_boolOf _ _ _ (qcombineAnd_ne_empty _ _ hq1ne)]
        rw [qcombineAnd_eval, qofDict_eval]
        rw [q1_eval_eq r reverse (startsDash ord) (nullable (lstripDash ord))
          (lstripDash ord) v0 hgoodo]
        rw [branch_some_eq_head reverse (startsDash ord) (nullable (lstripDash ord))
          (r (lstripDash ord)) v0 (hr (lstripDash ord))]
        rw [evalDict_append]
        have hsing : evalDict [(lstripDash ord ++ sfxExact, some v0)] r =
            decide (r (lstripDash ord) = some v0) := by
          simp [evalDict, evalLookup_exact]
        rw [hsing]
        rw [hheadconsdirs, hheadconskey, tupleCmp_cons_decide]
        rw [head_eq_decide]
        generalize boolOf filtering r = A
        generalize evalDict qEq r = E
        generalize decide (fieldCmp (startsDash ord) (r (lstripDash ord)) (some v0) =
          (if reverse then Ordering.lt else Ordering.gt)) = H
        generalize decide (r (lstripDash ord) = some v0) = M
        generalize decide (tupleCmp (dirs os') (docKey os' r) vs' =
          (if reverse then Ordering.lt else Ordering.gt)) = T
        cases A <;> cases E <;> cases H <;> cases M <;> cases T <;> rfl

/-- Semantics of the filter built by `apply_cursor`: the empty accumulator
contributes `false`, every emitted branch follows the strict lexicographic
comparison with the cursor position. -/
theorem applyCursorQ_boolOf {V : Type} [LinearOrder V] (nullable : Str → Bool)
    (ordering : List Str) (position : List (Option V)) (reverse : Bool) (q : QPred V)
    (r : Doc V) (hr : ∀ f, r f = none → nullable f = true)
    (hlen : position.length = ordering.length)
    (hnodup : (ordering.map lstripDash).Nodup)
    (hgood : ∀ o ∈ ordering, goodField (lstripDash o) = true)
    (hok : applyCursorQ nullable ordering position reverse = .ok q) :
    boolOf q r = decide (docPosCmp ordering r position =
      (if reverse then Ordering.lt else Ordering.gt)) := by
  have h := applyCursorLoop_boolOf nullable reverse r hr ordering position [] .empty q
    hlen hnodup hgood (by simp) (by simp) hok
  rw [h]
  simp [boolOf, evalDict, docPosCmp]

/-- When at least one branch was emitted, the filter selects exactly the
records strictly beyond the cursor. -/
theorem applyCursorQ_eval {V : Type} [LinearOrder V] (nullable : Str → Bool)
    (ordering : List Str) (position : List (Option V)) (reverse : Bool) (q : QPred V)
    (r : Doc V) (hr : ∀ f, r f = none → nullable f = true)
    (hlen : position.length = ordering.length)
    (hnodup : (ordering.map lstripDash).Nodup)
    (hgood : ∀ o ∈ ordering, goodField (lstripDash o) = true)
    (hok : applyCursorQ nullable ordering position reverse = .ok q)
    (hne : q ≠ .empty) :
    q.eval r = decide (docPosCmp ordering r position =
      (if reverse then Ordering.lt else Ordering.gt)) := by
  have h := applyCursorQ_boolOf nullable ordering position reverse q r hr hlen hnodup hgood hok
  rw [boolOf, if_neg hne] at h
  exact h

/-- When no branch was emitted (the filter stayed the empty `Q()`), no
record is strictly beyond the cursor position. -/
theorem applyCursorQ_empty {V : Type} [LinearOrder V] (nullable : Str → Bool)
    (ordering : List Str) (position : List (Option V)) (reverse : Bool)
    (r : Doc V) (hr : ∀ f, r f = none → nullable f = true)
    (hlen : position.length = ordering.length)
    (hnodup : (ordering.map lstripDash).Nodup)
    (hgood : ∀ o ∈ ordering, goodField (lstripDash o) = true)
    (hok : applyCursorQ nullable ordering position reverse = .ok .empty) :
    docPosCmp ordering r position ≠ (if reverse then Ordering.lt else Ordering.gt) := by
  have h := applyCursorQ_boolOf nullable ordering position reverse .empty r hr
    hlen hnodup hgood hok
  rw [boolOf, if_pos rfl] at h
  intro hc
  rw [hc] at h
  simp at h

/-- C1 (code bug): for the SortSpec `('-a',)` on a nullable field and the
decoded position `(None,)` with `reverse=False`, `apply_cursor` emits no
branch, so the filter is the empty `Q()` and matches every record — here a
record with `a = 5`, which sorts strictly before the cursor position
(`docPosCmp = .lt`, not `.gt`): the predicate does not select exactly the
records strictly after the cursor. -/
theorem apply_cursor_null_desc_matches_all :
    applyCursorQ (fun _ => true) [['-', 'a']] [(none : Option Nat)] false = .ok .empty ∧
    QPred.eval (V := Nat) .empty (fun f => if f = ['a'] then some 5 else none) = true ∧
    docPosCmp [['-', 'a']] (fun f => if f = ['a'] then some 5 else none)
      [(none : Option Nat)] = .lt := by
  refine ⟨by rfl, rfl, by rfl⟩

/-- The `zip` in `apply_cursor` silently truncates to the shorter of the
ordering and the decoded position: extra ordering fields are ignored. -/
theorem applyCursorLoop_take_ordering {V : Type} [LinearOrder V]
    (nullable : Str → Bool) (reverse : Bool) :
    ∀ (os : List Str) (vs : List (Option V)) (qEq : List (Str × Option V))
      (filtering : QPred V),
      applyCursorLoop nullable reverse os vs qEq filtering =
        applyCursorLoop nullable reverse (os.take vs.length) vs qEq filtering := by
  intro os
  induction os with
  | nil => intro vs qEq filtering; rw [List.take_nil]
  | cons ord os' ih =>
    intro vs qEq filtering
    cases vs with
    | nil => rfl
    | cons v vs' =>
      rw [List.length_cons, List.take_succ_cons]
      cases v with
      | none =>
        simp only [applyCursorLoop]
        by_cases hnl : nullable (lstripDash ord) = false
        · rw [if_pos hnl, if_pos hnl]
        · rw [if_neg hnl, if_neg hnl]
          exact ih vs' _ _
      | some v0 =>
        simp only [applyCursorLoop]
        exact ih vs' _ _

/-- ... and extra position fields are ignored likewise. -/
theorem applyCursorLoop_take_position {V : Type} [LinearOrder V]
    (nullable : Str → Bool) (reverse : Bool) :
    ∀ (os : List Str) (vs : List (Option V)) (qEq : List (Str × Option V))
      (filtering : QPred V),
      applyCursorLoop nullable reverse os vs qEq filtering =
        applyCursorLoop nullable reverse os (vs.take os.length) qEq filtering := by
  intro os
  induction os with
  | nil => intro vs qEq filtering; cases vs <;> rfl
  | cons ord os' ih =>
    intro vs qEq filtering
    cases vs with
    | nil => rfl
    | cons v vs' =>
      rw [List.length_cons, List.take_succ_cons]
      cases v with
      | none =>
        simp only [applyCursorLoop]
        by_cases hnl : nullable (lstripDash ord) = false
        · rw [if_pos hnl, if_pos hnl]
        · rw [if_neg hnl, if_neg hnl]
          exact ih vs' _ _
      | some v0 =>
        simp only [applyCursorLoop]
        exact ih vs' _ _

/-- C2 (amended): a decoded position whose length differs from the SortSpec
length is not rejected; `apply_cursor` silently builds the filter from the
common prefix of the ordering and the position. -/
theorem apply_cursor_truncates {V : Type} [LinearOrder V] (nullable : Str → Bool)
    (ordering : List Str) (position : List (Option V)) (reverse : Bool) :
    applyCursorQ nullable ordering position reverse =
        applyCursorQ nullable (ordering.take position.length) position reverse ∧
      applyCursorQ nullable ordering position reverse =
        applyCursorQ nullable ordering (position.take ordering.length) reverse :=
  ⟨applyCursorLoop_take_ordering nullable reverse ordering position [] .empty,
    applyCursorLoop_take_position nullable reverse ordering position [] .empty⟩

/-- C2 (counterexample): with a two-field SortSpec and a decoded position of
one field, `apply_cursor` does not raise `InvalidCursor`; it returns a
filter comparing only the first field. -/
theorem apply_cursor_length_mismatch_silent :
    applyCursorQ (fun _ => true) [['a'], ['b']] [some (1 : Nat)] false =
      .ok (.qdict [(['a', '_', '_', 'g', 't'], some 1)]) := by
  rfl

/-- C3 (amended): decoding a token either raises `InvalidCursor` (the only
error it can raise) or yields a position with at least one field — never a
silent empty page; but not every non-base64 string is rejected, because
Python's lenient decoder discards unrecognised characters. -/
theorem decode_cursor_error_or_position (cursor : Str) :
    decode_cursor cursor = .error .invalidCursor ∨
      ∃ p, decode_cursor cursor = .ok p ∧ p ≠ [] := by
  unfold decode_cursor
  split
  · exact Or.inl rfl
  · split
    · exact Or.inl rfl
    · split
      · exact Or.inl rfl
      · rename_i orderings heq
        refine Or.inr ⟨_, rfl, ?_⟩
        intro hc
        have hsp : orderings.splitOn delimiter ≠ [] :=
          List.splitOnP_ne_nil _ orderings
        exact hsp (List.map_eq_nil_iff.mp hc)

/-- C3 (counterexample): the token `"!"` is not valid base64, yet
`decode_cursor` does not raise `InvalidCursor`: Python's `b64decode`
discards the invalid character, decodes to the empty byte string, and the
cursor decodes to the one-field position `[""]`. -/
theorem decode_cursor_accepts_non_base64 :
    decode_cursor ['!'] = .ok [some []] := by
  rfl

/-! ### Base64 round trip -/

theorem b64enc1_facts : ∀ x < 64, b64val (b64enc1 x) = x ∧ isB64Byte (b64enc1 x) = true ∧
    b64enc1 x ≠ 61 ∧ b64enc1 x < 128 := by decide

/-- The data characters of a base64 encoding (everything before the `=`
padding). -/
def sextChars : List Nat → List Nat
  | [] => []
  | [b1] => [b64enc1 (b1 / 4), b64enc1 (b1 % 4 * 16)]
  | [b1, b2] => [b64enc1 (b1 / 4), b64enc1 (b1 % 4 * 16 + b2 / 16), b64enc1 (b2 % 16 * 4)]
  | b1 :: b2 :: b3 :: rest =>
      b64enc1 (b1 / 4) :: b64enc1 (b1 % 4 * 16 + b2 / 16) ::
        b64enc1 (b2 % 16 * 4 + b3 / 64) :: b64enc1 (b3 % 64) :: sextChars rest

/-- The `=` padding of a base64 encoding. -/
def padChars : List Nat → List Nat
  | [] => []
  | [_] => [61, 61]
  | [_, _] => [61]
  | _ :: _ :: _ :: rest => padChars rest

theorem b64encodeBytes_eq (bs : List Nat) :
    b64encodeBytes bs = sextChars bs ++ padChars bs := by
  match bs with
  | [] => rfl
  | [b1] => rfl
  | [b1, b2] => rfl
  | b1 :: b2 :: b3 :: rest =>
    simp only [b64encodeBytes, sextChars, padChars, List.cons_append]
    rw [b64encodeBytes_eq rest]

theorem padChars_shape (bs : List Nat) :
    padChars bs = [] ∨ padChars bs = [61] ∨ padChars bs = [61, 61] := by
  match bs with
  | [] => exact Or.inl rfl
  | [b1] => exact Or.inr (Or.inr rfl)
  | [b1, b2] => exact Or.inr (Or.inl rfl)
  | b1 :: b2 :: b3 :: rest => exact padChars_shape rest

theorem sextChars_bounds (bs : List Nat) (h : ∀ b ∈ bs, b < 256) :
    ∀ c ∈ sextChars bs, ∃ x, x < 64 ∧ c = b64enc1 x := by
  match bs with
  | [] => intro c hc; exact absurd hc (by simp [sextChars])
  | [b1] =>
    have hb1 : b1 < 256 := h b1 (by simp)
    intro c hc
    simp only [sextChars, List.mem_cons, List.mem_singleton] at hc
    rcases hc with hc | hc | hc
    · exact ⟨b1 / 4, by omega, hc⟩
    · exact ⟨b1 % 4 * 16, by omega, hc⟩
    · exact absurd hc (by simp)
  | [b1, b2] =>
    have hb1 : b1 < 256 := h b1 (by simp)
    have hb2 : b2 < 256 := h b2 (by simp)
    intro c hc
    simp only [sextChars, List.mem_cons, List.mem_singleton] at hc
    rcases hc with hc | hc | hc | hc
    · exact ⟨b1 / 4, by omega, hc⟩
    · exact ⟨b1 % 4 * 16 + b2 / 16, by omega, hc⟩
    · exact ⟨b2 % 16 * 4, by omega, hc⟩
    · exact absurd hc (by simp)
  | b1 :: b2 :: b3 :: rest =>
    have hb1 : b1 < 256 := h b1 (by simp)
    have hb2 : b2 < 256 := h b2 (by simp)
    have hb3 : b3 < 256 := h b3 (by simp)
    have ih := sextChars_bounds rest (fun b hb => h b (by simp [hb]))
    intro c hc
    simp only [sextChars, List.mem_cons] at hc
    rcases hc with hc | hc | hc | hc | hc
    · exact ⟨b1 / 4, by omega, hc⟩
    · exact ⟨b1 % 4 * 16 + b2 / 16, by omega, hc⟩
    · exact ⟨b2 % 16 * 4 + b3 / 64, by omega, hc⟩
    · exact ⟨b3 % 64, by omega, hc⟩
    · exact ih c hc

/-- The sextet values of a base64 encoding. -/
def sextVals : List Nat → List Nat
  | [] => []
  | [b1] => [b1 / 4, b1 % 4 * 16]
  | [b1, b2] => [b1 / 4, b1 % 4 * 16 + b2 / 16, b2 % 16 * 4]
  | b1 :: b2 :: b3 :: rest =>
      b1 / 4 :: (b1 % 4 * 16 + b2 / 16) :: (b2 % 16 * 4 + b3 / 64) :: b3 % 64 :: sextVals rest

theorem map_b64val_sextChars (bs : List Nat) (h : ∀ b ∈ bs, b < 256) :
    (sextChars bs).map b64val = sextVals bs := by
  match bs with
  | [] => rfl
  | [b1] =>
    have hb1 : b1 < 256 := h b1 (by simp)
    simp only [sextChars, sextVals, List.map_cons, List.map_nil]
    rw [(b64enc1_facts (b1 / 4) (by omega)).1, (b64enc1_facts (b1 % 4 * 16) (by omega)).1]
  | [b1, b2] =>
    have hb1 : b1 < 256 := h b1 (by simp)
    have hb2 : b2 < 256 := h b2 (by simp)
    simp only [sextChars, sextVals, List.map_cons, List.map_nil]
    rw [(b64enc1_facts (b1 / 4) (by omega)).1,
      (b64enc1_facts (b1 % 4 * 16 + b2 / 16) (by omega)).1,
      (b64enc1_facts (b2 % 16 * 4) (by omega)).1]
  | b1 :: b2 :: b3 :: rest =>
    have hb1 : b1 < 256 := h b1 (by simp)
    have hb2 : b2 < 256 := h b2 (by simp)
    have hb3 : b3 < 256 := h b3 (by simp)
    simp only [sextChars, sextVals, List.map_cons]
    rw [(b64enc1_facts (b1 / 4) (by omega)).1,
      (b64enc1_facts (b1 % 4 * 16 + b2 / 16) (by omega)).1,
      (b64enc1_facts (b2 % 16 * 4 + b3 / 64) (by omega)).1,
      (b64enc1_facts (b3 % 64) (by omega)).1,
      map_b64val_sextChars rest (fun b hb => h b (by simp [hb]))]

theorem b64quads_sextVals (bs : List Nat) (h : ∀ b ∈ bs, b < 256) :
    b64quads (sextVals bs) = bs := by
  match bs with
  | [] => rfl
  | [b1] =>
    have hb1 : b1 < 256 := h b1 (by simp)
    simp only [sextVals, b64quads]
    congr 1
    omega
  | [b1, b2] =>
    have hb1 : b1 < 256 := h b1 (by simp)
    have hb2 : b2 < 256 := h b2 (by simp)
    simp only [sextVals, b64quads]
    congr 1
    · omega
    · congr 1
      omega
  | b1 :: b2 :: b3 :: rest =>
    have hb1 : b1 < 256 := h b1 (by simp)
    have hb2 : b2 < 256 := h b2 (by simp)
    have hb3 : b3 < 256 := h b3 (by simp)
    simp only [sextVals, b64quads]
    rw [b64quads_sextVals rest (fun b hb => h b (by simp [hb]))]
    congr 1
    · omega
    · congr 1
      · omega
      · congr 1
        omega

theorem sext_pad_cases (bs : List Nat) :
    ((sextVals bs).length % 4 = 0 ∧ padChars bs = []) ∨
      ((sextVals bs).length % 4 = 2 ∧ padChars bs = [61, 61]) ∨
        ((sextVals bs).length % 4 = 3 ∧ padChars bs = [61]) := by
  match bs with
  | [] => exact Or.inl ⟨rfl, rfl⟩
  | [b1] => exact Or.inr (Or.inl ⟨rfl, rfl⟩)
  | [b1, b2] => exact Or.inr (Or.inr ⟨rfl, rfl⟩)
  | b1 :: b2 :: b3 :: rest =>
    have ih := sext_pad_cases rest
    have hlen : (sextVals (b1 :: b2 :: b3 :: rest)).length =
        (sextVals rest).length + 4 := by
      simp [sextVals]
    have hpad : padChars (b1 :: b2 :: b3 :: rest) = padChars rest := rfl
    rw [hlen, hpad, Nat.add_mod_right]
    exact ih

theorem pyB64Decode_encode (bs : List Nat) (h256 : ∀ b ∈ bs, b < 256) :
    pyB64Decode (b64encodeBytes bs) = some bs := by
  have henc := b64encodeBytes_eq bs
  have hfilter : (b64encodeBytes bs).filter (fun b => isB64Byte b || b == 61) =
      b64encodeBytes bs := by
    rw [List.filter_eq_self]
    intro a ha
    rw [henc] at ha
    rcases List.mem_append.mp ha with hs | hp
    · obtain ⟨x, hx, hxe⟩ := sextChars_bounds bs h256 a hs
      subst hxe
      simp [(b64enc1_facts x hx).2.1]
    · rcases padChars_shape bs with hh | hh | hh <;> rw [hh] at hp <;> simp_all
  have hsextgood : ∀ c ∈ sextChars bs, (fun b => decide (b ≠ 61)) c = true := by
    intro c hc
    obtain ⟨x, hx, hxe⟩ := sextChars_bounds bs h256 c hc
    subst hxe
    simp [(b64enc1_facts x hx).2.2.1]
  have hdata : (b64encodeBytes bs).takeWhile (fun b => decide (b ≠ 61)) = sextChars bs := by
    rw [henc, List.takeWhile_append_of_pos hsextgood]
    have hpadtw : (padChars bs).takeWhile (fun b => decide (b ≠ 61)) = [] := by
      rcases padChars_shape bs with hh | hh | hh <;> rw [hh] <;> simp
    rw [hpadtw, List.append_nil]
  have hdrop : (b64encodeBytes bs).drop (sextChars bs).length = padChars bs := by
    rw [henc]
    exact List.drop_left _ _
  have hvals := map_b64val_sextChars bs h256
  have hquads := b64quads_sextVals bs h256
  simp only [pyB64Decode]
  rw [hfilter, hdata, hdrop, hvals]
  rcases sext_pad_cases bs with ⟨hm, hp⟩ | ⟨hm, hp⟩ | ⟨hm, hp⟩ <;>
    rw [hm, hp] <;> simp [hquads]

/-! ### UTF-8 round trip -/

theorem char_toNat_valid (c : Char) :
    c.toNat < 55296 ∨ (57343 < c.toNat ∧ c.toNat < 1114112) :=
  c.valid

theorem toNat_ofNat_valid (n : Nat) (h : n.isValidChar) : (Char.ofNat n).toNat = n := by
  unfold Char.ofNat
  rw [dif_pos h]
  rfl

theorem utf8DecodeOne_ascii (b : Nat) (hb : b < 128) (rest : List Nat) :
    utf8DecodeOne (b :: rest) = some (b, rest) := by
  simp only [utf8DecodeOne]
  rw [if_pos hb]

theorem utf8DecodeOne_two (m : Nat) (h1 : 128 ≤ m) (h2 : m < 2048) (rest : List Nat) :
    utf8DecodeOne ((192 + m / 64) :: (128 + m % 64) :: rest) = some (m, rest) := by
  have hb : ¬(192 + m / 64 < 128) := by omega
  have hc : ¬(192 + m / 64 < 192) := by omega
  have hd : 192 + m / 64 < 224 := by omega
  have he : 128 ≤ 128 + m % 64 ∧ 128 + m % 64 < 192 := by omega
  have hn : (192 + m / 64 - 192) * 64 + (128 + m % 64 - 128) = m := by omega
  simp only [utf8DecodeOne]
  rw [if_neg hb, if_neg hc, if_pos hd, if_pos he, hn, if_pos h1]

theorem utf8DecodeOne_three (m : Nat) (h1 : 2048 ≤ m) (h2 : m < 65536)
    (hs : ¬(55296 ≤ m ∧ m < 57344)) (rest : List Nat) :
    utf8DecodeOne ((224 + m / 4096) :: (128 + m / 64 % 64) :: (128 + m % 64) :: rest) =
      some (m, rest) := by
  have hb : ¬(224 + m / 4096 < 128) := by omega
  have hc : ¬(224 + m / 4096 < 192) := by omega
  have hd : ¬(224 + m / 4096 < 224) := by omega
  have hd2 : 224 + m / 4096 < 240 := by omega
  have he : (128 ≤ 128 + m / 64 % 64 ∧ 128 + m / 64 % 64 < 192) ∧
      (128 ≤ 128 + m % 64 ∧ 128 + m % 64 < 192) := by omega
  have hn : (224 + m / 4096 - 224) * 4096 + (128 + m / 64 % 64 - 128) * 64 +
      (128 + m % 64 - 128) = m := by omega
  simp only [utf8DecodeOne]
  rw [if_neg hb, if_neg hc, if_neg hd, if_pos hd2, if_pos he, hn, if_pos ⟨h1, hs⟩]

theorem utf8DecodeOne_four (m : Nat) (h1 : 65536 ≤ m) (h2 : m < 1114112) (rest : List Nat) :
    utf8DecodeOne ((240 + m / 262144) :: (128 + m / 4096 % 64) :: (128 + m / 64 % 64) ::
        (128 + m % 64) :: rest) = some (m, rest) := by
  have hb : ¬(240 + m / 262144 < 128) := by omega
  have hc : ¬(240 + m / 262144 < 192) := by omega
  have hd : ¬(240 + m / 262144 < 224) := by omega
  have hd2 : ¬(240 + m / 262144 < 240) := by omega
  have hd3 : 240 + m / 262144 < 248 := by omega
  have he : (128 ≤ 128 + m / 4096 % 64 ∧ 128 + m / 4096 % 64 < 192) ∧
      (128 ≤ 128 + m / 64 % 64 ∧ 128 + m / 64 % 64 < 192) ∧
        (128 ≤ 128 + m % 64 ∧ 128 + m % 64 < 192) := by omega
  have hn : (240 + m / 262144 - 240) * 262144 + (128 + m / 4096 % 64 - 128) * 4096 +
      (128 + m / 64 % 64 - 128) * 64 + (128 + m % 64 - 128) = m := by omega
  simp only [utf8DecodeOne]
  rw [if_neg hb, if_neg hc, if_neg hd, if_neg hd2, if_pos hd3, if_pos he, hn,
    if_pos ⟨h1, h2⟩]

theorem utf8EncodeChar_length (c : Char) :
    1 ≤ (utf8EncodeChar c).length ∧ (utf8EncodeChar c).length ≤ 4 := by
  by_cases h1 : c.toNat < 128
  · simp [utf8EncodeChar, h1]
  · by_cases h2 : c.toNat < 2048
    · simp [utf8EncodeChar, h1, h2]
    · by_cases h3 : c.toNat < 65536
      · simp [utf8EncodeChar, h1, h2, h3]
      · simp [utf8EncodeChar, h1, h2, h3]

theorem utf8DecodeOne_encodeChar (c : Char) (rest : List Nat) :
    utf8DecodeOne (utf8EncodeChar c ++ rest) = some (c.toNat, rest) := by
  have hval := char_toNat_valid c
  by_cases h1 : c.toNat < 128
  · have he : utf8EncodeChar c = [c.toNat] := by simp [utf8EncodeChar, h1]
    rw [he, List.cons_append, List.nil_append]
    exact utf8DecodeOne_ascii c.toNat h1 rest
  · by_cases h2 : c.toNat < 2048
    · have he : utf8EncodeChar c = [192 + c.toNat / 64, 128 + c.toNat % 64] := by
        simp [utf8EncodeChar, h1, h2]
      rw [he, List.cons_append, List.cons_append, List.nil_append]
      exact utf8DecodeOne_two c.toNat (by omega) h2 rest
    · by_cases h3 : c.toNat < 65536
      · have he : utf8EncodeChar c =
            [224 + c.toNat / 4096, 128 + c.toNat / 64 % 64, 128 + c.toNat % 64] := by
          simp [utf8EncodeChar, h1, h2, h3]
        have hs : ¬(55296 ≤ c.toNat ∧ c.toNat < 57344) := by omega
        rw [he, List.cons_append, List.cons_append, List.cons_append, List.nil_append]
        exact utf8DecodeOne_three c.toNat (by omega) h3 hs rest
      · have he : utf8EncodeChar c = [240 + c.toNat / 262144, 128 + c.toNat / 4096 % 64,
            128 + c.toNat / 64 % 64, 128 + c.toNat % 64] := by
          simp [utf8EncodeChar, h1, h2, h3]
        rw [he, List.cons_append, List.cons_append, List.cons_append, List.cons_append,
          List.nil_append]
        exact utf8DecodeOne_four c.toNat (by omega) (by omega) rest

theorem utf8DecodeLoop_encode (s : Str) :
    ∀ fuel, (utf8Encode s).length ≤ fuel →
      utf8DecodeLoop fuel (utf8Encode s) = some s := by
  induction s with
  | nil => intro fuel _; cases fuel <;> rfl
  | cons c s2 ih =>
    intro fuel hfuel
    have henc : utf8Encode (c :: s2) = utf8EncodeChar c ++ utf8Encode s2 := rfl
    have hlen1 := (utf8EncodeChar_length c).1
    have hne : utf8Encode (c :: s2) ≠ [] := by
      rw [henc]
      intro hc
      have h0 := congrArg List.length hc
      rw [List.length_append] at h0
      simp only [List.length_nil] at h0
      omega
    cases fuel with
    | zero =>
      exfalso
      rw [henc, List.length_append] at hfuel
      omega
    | succ fuel2 =>
      rcases hE : utf8Encode (c :: s2) with _ | ⟨b, bs⟩
      · exact absurd hE hne
      · rw [show utf8DecodeLoop (Nat.succ fuel2) (b :: bs) =
            (match utf8DecodeOne (b :: bs) with
             | some (n, rest2) => utf8Cont n (utf8DecodeLoop fuel2 rest2)
             | none => none) from rfl]
        rw [show (b :: bs) = utf8Encode (c :: s2) from hE.symm, henc,
          utf8DecodeOne_encodeChar c (utf8Encode s2)]
        have hrec : utf8DecodeLoop fuel2 (utf8Encode s2) = some s2 := by
          apply ih
          rw [henc, List.length_append] at hfuel
          omega
        show utf8Cont c.toNat (utf8DecodeLoop fuel2 (utf8Encode s2)) = some (c :: s2)
        rw [hrec]
        rw [show utf8Cont c.toNat (some s2) = some (Char.ofNat c.toNat :: s2) from rfl,
          Char.ofNat_toNat]

theorem utf8Decode_encode (s : Str) : utf8Decode (utf8Encode s) = some s :=
  utf8DecodeLoop_encode s (utf8Encode s).length (Nat.le_refl _)

theorem utf8EncodeChar_lt256 (c : Char) : ∀ b ∈ utf8EncodeChar c, b < 256 := by
  have hval := char_toNat_valid c
  intro b hb
  by_cases h1 : c.toNat < 128
  · simp [utf8EncodeChar, h1] at hb
    omega
  · by_cases h2 : c.toNat < 2048
    · simp [utf8EncodeChar, h1, h2] at hb
      rcases hb with hb | hb <;> omega
    · by_cases h3 : c.toNat < 65536
      · simp [utf8EncodeChar, h1, h2, h3] at hb
        rcases hb with hb | hb | hb <;> omega
      · have h4 : c.toNat < 1114112 := by omega
        simp [utf8EncodeChar, h1, h2, h3] at hb
        rcases hb with hb | hb | hb | hb <;> omega

theorem utf8Encode_lt256 (s : Str) : ∀ b ∈ utf8Encode s, b < 256 := by
  induction s with
  | nil => intro b hb; exact absurd hb (by simp [utf8Encode])
  | cons c s' ih =>
    intro b hb
    rw [show utf8Encode (c :: s') = utf8EncodeChar c ++ utf8Encode s' from rfl] at hb
    rcases List.mem_append.mp hb with hb | hb
    · exact utf8EncodeChar_lt256 c b hb
    · exact ih b hb

/-! ### Cursor round trip (C4) -/

theorem b64encodeBytes_lt128 (bs : List Nat) (h256 : ∀ b ∈ bs, b < 256) :
    ∀ b ∈ b64encodeBytes bs, b < 128 := by
  intro b hb
  rw [b64encodeBytes_eq] at hb
  rcases List.mem_append.mp hb with hs | hp
  · obtain ⟨x, hx, hxe⟩ := sextChars_bounds bs h256 b hs
    subst hxe
    exact (b64enc1_facts x hx).2.2.2
  · rcases padChars_shape bs with hh | hh | hh <;> rw [hh] at hp <;> simp_all

theorem asciiBytes_of_bytes (bs : List Nat) (h : ∀ b ∈ bs, b < 128) :
    asciiBytes (bs.map Char.ofNat) = some bs := by
  have hvalid : ∀ b ∈ bs, b.isValidChar := by
    intro b hb
    exact Or.inl (by have := h b hb; omega)
  have hall : (bs.map Char.ofNat).all (fun c => c.toNat < 128) = true := by
    rw [List.all_eq_true]
    intro c hc
    obtain ⟨b, hb, hbe⟩ := List.mem_map.mp hc
    subst hbe
    rw [toNat_ofNat_valid b (hvalid b hb)]
    simp [h b hb]
  rw [asciiBytes, if_pos hall, List.map_map]
  congr 1
  calc bs.map (Char.toNat ∘ Char.ofNat) = bs.map id := by
        apply List.map_congr_left
        intro b hb
        exact toNat_ofNat_valid b (hvalid b hb)
    _ = bs := List.map_id bs

theorem decode_cursor_of_parts (cursor : Str) (bytes decoded : List Nat) (orderings : Str)
    (hA : asciiBytes cursor = some bytes) (hB : pyB64Decode bytes = some decoded)
    (hU : utf8Decode decoded = some orderings) :
    decode_cursor cursor = .ok ((orderings.splitOn delimiter).map
      (fun o => if o = none_string then none else some o)) := by
  unfold decode_cursor
  simp only [hA, hB, hU]

/-- C4: `decode_cursor` inverts `encode_cursor` on the string form of any
non-empty Position whose concrete values contain no delimiter and do not
collide with the null sentinel (null markers round-trip through the
sentinel substitution of `position_from_instance`). -/
theorem decode_encode_cursor (p : List (Option Str)) (hne : p ≠ [])
    (hvals : ∀ s, some s ∈ p → delimiter ∉ s ∧ s ≠ none_string) :
    decode_cursor (encode_cursor (positionToStrings p)) = .ok p := by
  have hjoin_mem : ∀ l ∈ positionToStrings p, delimiter ∉ l := by
    intro l hl
    obtain ⟨v, hv, hveq⟩ := List.mem_map.mp hl
    cases v with
    | none =>
      rw [← hveq]
      decide
    | some s =>
      rw [← hveq]
      exact (hvals s hv).1
  have hps_ne : positionToStrings p ≠ [] := by
    intro hc
    exact hne (List.map_eq_nil_iff.mp hc)
  have hb256 := utf8Encode_lt256 ([delimiter].intercalate (positionToStrings p))
  have hb128 := b64encodeBytes_lt128 _ hb256
  have hascii : asciiBytes (encode_cursor (positionToStrings p)) =
      some (b64encodeBytes (utf8Encode ([delimiter].intercalate (positionToStrings p)))) :=
    asciiBytes_of_bytes _ hb128
  have hb64 := pyB64Decode_encode _ hb256
  have hutf := utf8Decode_encode ([delimiter].intercalate (positionToStrings p))
  rw [decode_cursor_of_parts _ _ _ _ hascii hb64 hutf]
  rw [List.splitOn_intercalate (positionToStrings p) delimiter hjoin_mem hps_ne]
  congr 1
  rw [show positionToStrings p =
    p.map (fun v => match v with | none => none_string | some s => s) from rfl]
  rw [List.map_map]
  calc p.map ((fun o => if o = none_string then none else some o) ∘
        (fun v => match v with | none => none_string | some s => s))
      = p.map id := by
        apply List.map_congr_left
        intro v hv
        cases v with
        | none => simp
        | some s =>
          have hs : s ≠ none_string := (hvals s hv).2
          simp [hs]
    _ = p := List.map_id p

theorem decode_encode_cursor_witness :
    decode_cursor (encode_cursor (positionToStrings [some ['a'], none, some ['b']])) =
      .ok [some ['a'], none, some ['b']] := by
  apply decode_encode_cursor [some ['a'], none, some ['b']] (by simp)
  intro s hs
  simp only [List.mem_cons, List.not_mem_nil, or_false] at hs
  rcases hs with h | h | h
  · rw [Option.some_inj] at h
    subst h
    exact ⟨by decide, by decide⟩
  · exact absurd h (by simp)
  · rw [Option.some_inj] at h
    subst h
    exact ⟨by decide, by decide⟩

/-! ### Querysets, the paginator and `page` -/

/-- A mongoengine queryset as the paginator uses it: the stored documents,
the schema's nullability map (`queryset._document`), the current `order_by`
ordering, the accumulated filter and the slice limit. -/
structure MQuerySet (V : Type) where
  docs : List (Doc V)
  nullable : Str → Bool
  ordering : List Str
  qfilter : QPred V
  lim : Option Nat

/-- `queryset.order_by(*ordering)`: replaces the ordering. -/
def MQuerySet.order_by {V : Type} (qs : MQuerySet V) (ordering : List Str) : MQuerySet V :=
  { qs with ordering := ordering }

/-- `queryset.filter(q)`: conjoins a further condition. -/
def MQuerySet.filterQ {V : Type} (qs : MQuerySet V) (q : QPred V) : MQuerySet V :=
  { qs with qfilter := qcombineAnd qs.qfilter q }

/-- `queryset[:k]`: installs a result limit. -/
def MQuerySet.slice {V : Type} (qs : MQuerySet V) (k : Nat) : MQuerySet V :=
  { qs with lim := some k }

/-- The comparison MongoDB sorts by under the queryset's ordering. -/
def recLe {V : Type} [LinearOrder V] (ordering : List Str) (a b : Doc V) : Bool :=
  decide (tupleCmp (dirs ordering) (docKey ordering a) (docKey ordering b) ≠ .gt)

/-- The sorting relation of the queryset's ordering. -/
def recLeP {V : Type} [LinearOrder V] (ordering : List Str) (a b : Doc V) : Prop :=
  recLe ordering a b = true

instance {V : Type} [LinearOrder V] (ordering : List Str) :
    DecidableRel (recLeP (V := V) ordering) := fun a b => by
  unfold recLeP
  infer_instance

/-- `list(qs)`: filter, sort (stably) by the current ordering (nulls first
on ascending fields), apply the limit. -/
def MQuerySet.toList {V : Type} [LinearOrder V] (qs : MQuerySet V) : List (Doc V) :=
  let filtered := qs.docs.filter (fun r => qs.qfilter.eval r)
  let sorted := filtered.insertionSort (recLeP qs.ordering)
  match qs.lim with
  | none => sorted
  | some k => sorted.take k

/-- `CursorPaginator`: holds the ordered queryset and the ordering. -/
structure CursorPaginator (V : Type) where
  queryset : MQuerySet V
  ordering : List Str

/-- `CursorPaginator.__init__`: `queryset.order_by(*ordering)`. -/
def mkPaginator {V : Type} (qs : MQuerySet V) (ordering : List Str) : CursorPaginator V :=
  ⟨qs.order_by ordering, ordering⟩

/-- `CursorPage`: items plus the pagination flags. -/
structure CursorPage (V : Type) where
  items : List (Doc V)
  has_next : Bool
  has_previous : Bool

/-- Python truthiness of an optional cursor string: `bool(None)` and
`bool('')` are false. -/
def pyBool (s : Option Str) : Bool :=
  match s with
  | none => false
  | some s => !s.isEmpty

/-- `CursorPaginator.apply_cursor`: decode the token, cast the concrete
values to the field type, build the boundary filter and install it on the
queryset. The `from_last` parameter is accepted and unused, as in the
source. -/
def apply_cursor {V : Type} [LinearOrder V] (cast : Str → V) (pagOrdering : List Str)
    (cursor : Str) (queryset : MQuerySet V) (from_last : Bool) (reverse : Bool) :
    Except PErr (MQuerySet V) :=
  match decode_cursor cursor with
  | .error e => .error e
  | .ok posStrings =>
    let position := posStrings.map (fun o => o.map cast)
    match applyCursorQ queryset.nullable pagOrdering position reverse with
    | .error e => .error e
    | .ok filtering => .ok (queryset.filterQ filtering)

/-- `CursorPaginator._apply_paginator_arguments`. -/
def apply_paginator_arguments {V : Type} [LinearOrder V] (cast : Str → V)
    (pag : CursorPaginator V) (qs : MQuerySet V) (first last : Option Nat)
    (after before : Option Str) : Except PErr (MQuerySet V) :=
  if last.isSome && first.isSome then .error .valueError
  else
    match (match after with
           | some c => apply_cursor cast pag.ordering c qs last.isSome false
           | none => .ok qs) with
    | .error e => .error e
    | .ok qs1 =>
      match (match before with
             | some c => apply_cursor cast pag.ordering c qs1 last.isSome true
             | none => .ok qs1) with
      | .error e => .error e
      | .ok qs2 =>
        let qs3 := match first with
          | some f => qs2.slice (f + 1)
          | none => qs2
        let qs4 := match last with
          | some l => (qs3.order_by (reverse_ordering pag.ordering)).slice (l + 1)
          | none => qs3
        .ok qs4

/-- `CursorPaginator._get_cursor_page`. -/
def get_cursor_page {V : Type} (items : List (Doc V)) (has_additional : Bool)
    (first last : Option Nat) (after before : Option Str) : CursorPage V :=
  if first.isSome then ⟨items, has_additional, pyBool after⟩
  else if last.isSome then ⟨items, pyBool before, has_additional⟩
  else ⟨items, false, false⟩

/-- `CursorPaginator.page`. -/
def page {V : Type} [LinearOrder V] (cast : Str → V) (pag : CursorPaginator V)
    (first last : Option Nat) (after before : Option Str) :
    Except PErr (CursorPage V) :=
  match apply_paginator_arguments cast pag pag.queryset first last after before with
  | .error e => .error e
  | .ok qs =>
    let lst := qs.toList
    let page_size := match first with
      | some f => some f
      | none => last
    let items0 := match page_size with
      | some k => lst.take k
      | none => lst
    let items := if last.isSome then items0.reverse else items0
    let has_additional := decide (items.length < lst.length)
    .ok (get_cursor_page items has_additional first last after before)

theorem pyBool_iff (o : Option Str) : pyBool o = true ↔ ∃ s, o = some s ∧ s ≠ [] := by
  cases o with
  | none => simp [pyBool]
  | some s =>
    cases s with
    | nil => simp [pyBool]
    | cons c t => simp [pyBool]

theorem toList_length_le {V : Type} [LinearOrder V] (qs : MQuerySet V) (k : Nat)
    (h : qs.lim = some k) : qs.toList.length ≤ k := by
  unfold MQuerySet.toList
  rw [h]
  simp

/-- C5 (amended): supplying both `first` and `last` raises `ValueError`
independently of the store contents, before any query evaluation; supplying
neither is accepted and returns every record of the queryset with both
pagination flags false. -/
theorem page_first_last_validation {V : Type} [LinearOrder V] (cast : Str → V)
    (pag : CursorPaginator V) (a b : Nat) (after before : Option Str) :
    page cast pag (some a) (some b) after before = .error .valueError ∧
      page cast pag none none none none = .ok ⟨pag.queryset.toList, false, false⟩ :=
  ⟨rfl, rfl⟩

def castLen : Str → Nat := List.length

def nblAll : Str → Bool := fun _ => true

def docA (n : Nat) : Doc Nat := fun f => if f = ['a'] then some n else none

def qsOf (docs : List (Doc Nat)) : MQuerySet Nat := ⟨docs, nblAll, [], .empty, none⟩

def pagA (docs : List (Doc Nat)) : CursorPaginator Nat := mkPaginator (qsOf docs) [['a']]

/-- C5 (counterexample): a `page` call supplying neither `first` nor `last`
does not raise; it returns the whole (three-record) result set. -/
theorem page_neither_returns_all :
    (page castLen (pagA [docA 1, docA 2, docA 3]) none none none none).map
      (fun pg => pg.items.length) = .ok 3 := by
  rfl

theorem apply_paginator_lim_first {V : Type} [LinearOrder V] (cast : Str → V)
    (pag : CursorPaginator V) (qs0 : MQuerySet V) (n : Nat) (after before : Option Str)
    (qs : MQuerySet V)
    (h : apply_paginator_arguments cast pag qs0 (some n) none after before = .ok qs) :
    qs.lim = some (n + 1) := by
  unfold apply_paginator_arguments at h
  simp only [Option.isSome_none, Option.isSome_some, Bool.false_and, Bool.and_self,
    if_false, Bool.false_eq_true, ite_false] at h
  split at h
  · exact absurd h (by simp)
  · split at h
    · exact absurd h (by simp)
    · injection h with h2
      rw [← h2]
      rfl

theorem apply_paginator_lim_last {V : Type} [LinearOrder V] (cast : Str → V)
    (pag : CursorPaginator V) (qs0 : MQuerySet V) (n : Nat) (after before : Option Str)
    (qs : MQuerySet V)
    (h : apply_paginator_arguments cast pag qs0 none (some n) after before = .ok qs) :
    qs.lim = some (n + 1) := by
  unfold apply_paginator_arguments at h
  simp only [Option.isSome_none, Option.isSome_some, Bool.and_false, Bool.true_and,
    if_false, Bool.false_eq_true, ite_false] at h
  split at h
  · exact absurd h (by simp)
  · split at h
    · exact absurd h (by simp)
    · injection h with h2
      rw [← h2]
      rfl

/-- C7: a `page` call with `first = n` (resp. `last = n`) installs the
limit `n + 1` on the executed query, returns at most `n` items, and sets
the over-fetch flag (`has_next` for `first`, `has_previous` for `last`)
exactly when the store returned the extra `(n+1)`-th record. -/
theorem page_overfetch {V : Type} [LinearOrder V] (cast : Str → V)
    (pag : CursorPaginator V) (n : Nat) (after before : Option Str) :
    (∀ pg, page cast pag (some n) none after before = .ok pg →
      ∃ qs, apply_paginator_arguments cast pag pag.queryset (some n) none after before =
          .ok qs ∧ qs.lim = some (n + 1) ∧ pg.items.length ≤ n ∧
          (pg.has_next = true ↔ qs.toList.length = n + 1)) ∧
    (∀ pg, page cast pag none (some n) after before = .ok pg →
      ∃ qs, apply_paginator_arguments cast pag pag.queryset none (some n) after before =
          .ok qs ∧ qs.lim = some (n + 1) ∧ pg.items.length ≤ n ∧
          (pg.has_previous = true ↔ qs.toList.length = n + 1)) := by
  constructor
  · intro pg hpg
    unfold page at hpg
    rcases hA : apply_paginator_arguments cast pag pag.queryset (some n) none after before
      with e | qs
    · rw [hA] at hpg
      exact absurd hpg (by simp)
    · rw [hA] at hpg
      have hlim := apply_paginator_lim_first cast pag pag.queryset n after before qs hA
      have hlen := toList_length_le qs (n + 1) hlim
      injection hpg with hpg2
      refine ⟨qs, rfl, hlim, ?_, ?_⟩
      · rw [← hpg2]
        show ((MQuerySet.toList qs).take n).length ≤ n
        simp [List.length_take]
      · rw [← hpg2]
        show decide (((MQuerySet.toList qs).take n).length < (MQuerySet.toList qs).length)
            = true ↔ (MQuerySet.toList qs).length = n + 1
        rw [decide_eq_true_iff]
        simp only [List.length_take]
        omega
  · intro pg hpg
    unfold page at hpg
    rcases hA : apply_paginator_arguments cast pag pag.queryset none (some n) after before
      with e | qs
    · rw [hA] at hpg
      exact absurd hpg (by simp)
    · rw [hA] at hpg
      have hlim := apply_paginator_lim_last cast pag pag.queryset n after before qs hA
      have hlen := toList_length_le qs (n + 1) hlim
      injection hpg with hpg2
      refine ⟨qs, rfl, hlim, ?_, ?_⟩
      · rw [← hpg2]
        show (((MQuerySet.toList qs).take n).reverse).length ≤ n
        simp [List.length_take]
      · rw [← hpg2]
        show decide ((((MQuerySet.toList qs).take n).reverse).length <
            (MQuerySet.toList qs).length) = true ↔ (MQuerySet.toList qs).length = n + 1
        rw [decide_eq_true_iff]
        simp only [List.length_reverse, List.length_take]
        omega

theorem page_overfetch_witness :
    ∃ qs, apply_paginator_arguments castLen (pagA [docA 1, docA 2])
        (pagA [docA 1, docA 2]).queryset (some 1) none none none = .ok qs ∧
      qs.lim = some 2 ∧
        (CursorPage.mk (V := Nat) [docA 1] true false).items.length ≤ 1 ∧
      ((CursorPage.mk (V := Nat) [docA 1] true false).has_next = true ↔
        qs.toList.length = 2) :=
  (page_overfetch castLen (pagA [docA 1, docA 2]) 1 none none).1
    ⟨[docA 1], true, false⟩ (by rfl)

/-- C9 (amended): on a successful forward call, `has_previous` is the
Python truthiness of the `after` argument — true exactly when a non-empty
cursor string was supplied; symmetrically `has_next` on a backward call is
the truthiness of `before`. An empty-string cursor is applied as a filter
but reported as absent. -/
theorem page_flags_truthiness {V : Type} [LinearOrder V] (cast : Str → V)
    (pag : CursorPaginator V) (n : Nat) (after before : Option Str) :
    (∀ pg, page cast pag (some n) none after before = .ok pg →
      (pg.has_previous = true ↔ ∃ s, after = some s ∧ s ≠ [])) ∧
    (∀ pg, page cast pag none (some n) after before = .ok pg →
      (pg.has_next = true ↔ ∃ s, before = some s ∧ s ≠ [])) := by
  constructor
  · intro pg hpg
    unfold page at hpg
    rcases hA : apply_paginator_arguments cast pag pag.queryset (some n) none after before
      with e | qs
    · rw [hA] at hpg
      exact absurd hpg (by simp)
    · rw [hA] at hpg
      injection hpg with hpg2
      rw [← hpg2]
      show pyBool after = true ↔ _
      exact pyBool_iff after
  · intro pg hpg
    unfold page at hpg
    rcases hA : apply_paginator_arguments cast pag pag.queryset none (some n) after before
      with e | qs
    · rw [hA] at hpg
      exact absurd hpg (by simp)
    · rw [hA] at hpg
      injection hpg with hpg2
      rw [← hpg2]
      show pyBool before = true ↔ _
      exact pyBool_iff before

theorem page_flags_truthiness_witness :
    (CursorPage.mk (V := Nat) [] false true).has_previous = true ↔
      ∃ s, (some (encode_cursor (positionToStrings [some ['2']])) : Option Str) =
        some s ∧ s ≠ [] := by
  apply (page_flags_truthiness castLen (pagA []) 0
    (some (encode_cursor (positionToStrings [some ['2']]))) none).1 ⟨[], false, true⟩
  rfl

/-- C9 (counterexample): the empty-string token is a supplied `after`
cursor — it decodes and is applied as a boundary filter — yet the returned
page reports `has_previous = false`, because the code tests `bool(after)`
rather than `after is not None`. -/
theorem page_after_empty_token :
    page castLen (pagA []) (some 1) none (some []) none =
      .ok ⟨[], false, false⟩ := by
  rfl

/-- C6 (amended): `reverse=True` is used only for `before` cursors. During
a `last` request, an `after` cursor is still translated with
`reverse=False` (the `from_last` argument is unused), so the installed
filter selects exactly the records strictly after the cursor position. -/
theorem after_with_last_selects_forward {V : Type} [LinearOrder V] (cast : Str → V)
    (pag : CursorPaginator V) (qs0 : MQuerySet V) (n : Nat) (t : Str)
    (ds : List (Option Str)) (q : QPred V) (qs' : MQuerySet V) (r : Doc V)
    (hq0 : qs0.qfilter = .empty)
    (hdec : decode_cursor t = .ok ds)
    (hq : applyCursorQ qs0.nullable pag.ordering (ds.map (Option.map cast)) false = .ok q)
    (hne : q ≠ .empty)
    (hlen : (ds.map (Option.map cast)).length = pag.ordering.length)
    (hnodup : (pag.ordering.map lstripDash).Nodup)
    (hgood2 : ∀ o ∈ pag.ordering, goodField (lstripDash o) = true)
    (hr : ∀ f, r f = none → qs0.nullable f = true)
    (hA : apply_paginator_arguments cast pag qs0 none (some n) (some t) none = .ok qs') :
    qs'.qfilter.eval r =
      decide (docPosCmp pag.ordering r (ds.map (Option.map cast)) = .gt) := by
  have hstep : apply_paginator_arguments cast pag qs0 none (some n) (some t) none =
      .ok (((qs0.filterQ q).order_by (reverse_ordering pag.ordering)).slice (n + 1)) := by
    unfold apply_paginator_arguments apply_cursor
    simp only [hdec, hq, Option.isSome_some, Option.isSome_none, Bool.and_false,
      Bool.false_eq_true, if_false, ite_false]
  rw [hstep] at hA
  injection hA with h2
  rw [← h2]
  show (qcombineAnd qs0.qfilter q).eval r = _
  rw [hq0]
  have heval := applyCursorQ_eval qs0.nullable pag.ordering (ds.map (Option.map cast))
    false q r hr hlen hnodup hgood2 hq hne
  simp only [Bool.false_eq_true, if_false, ite_false] at heval
  rw [qcombineAnd_empty_left]
  exact heval

theorem after_with_last_selects_forward_witness :
    QPred.eval (V := Nat) (.qdict [(['a', '_', '_', 'g', 't'], some 1)]) (docA 2) =
      decide (docPosCmp [['a']] (docA 2) [some (1 : Nat)] = .gt) := by
  have h := after_with_last_selects_forward castLen (pagA []) (qsOf []) 5
    (encode_cursor (positionToStrings [some ['2']])) [some ['2']]
    (.qdict [(['a', '_', '_', 'g', 't'], some 1)])
    (((( qsOf []).filterQ (.qdict [(['a', '_', '_', 'g', 't'], some 1)])).order_by
      (reverse_ordering [['a']])).slice 6)
    (docA 2) rfl (by rfl) (by rfl) (by simp) (by rfl) (by decide)
    (by decide) (fun f hf => rfl) (by rfl)
  simpa using h

/-- C6 (counterexample): with `last` set and an `after` cursor at position
`1`, the installed filter keeps the record `a = 2` (strictly after the
cursor); the `reverse=True` filter the claim demands would reject it. -/
theorem after_with_last_counterexample :
    (apply_paginator_arguments castLen (pagA []) (qsOf []) none (some 5)
        (some (encode_cursor (positionToStrings [some ['2']]))) none).map
      (fun qs => qs.qfilter.eval (docA 2)) = .ok true ∧
    (applyCursorQ nblAll [['a']] [some (1 : Nat)] true).map
      (fun q => QPred.eval q (docA 2)) = .ok false :=
  ⟨rfl, rfl⟩

/-! ### Sorting facts for the backward/forward window equivalence (C8) -/

theorem sorted_perm_eq {α : Type} (le : α → α → Bool) :
    ∀ (l1 l2 : List α), List.Perm l1 l2 →
      l1.Pairwise (fun a b => le a b = true) →
      l2.Pairwise (fun a b => le a b = true) →
      (∀ a ∈ l1, ∀ b ∈ l1, le a b = true → le b a = true → a = b) →
      l1 = l2 := by
  intro l1
  induction l1 with
  | nil =>
    intro l2 hp _ _ _
    exact (hp.nil_eq).symm ▸ rfl
  | cons a t1 ih =>
    intro l2 hp hs1 hs2 hanti
    have ha2 : a ∈ l2 := hp.mem_iff.mp (by simp)
    cases l2 with
    | nil => exact absurd ha2 (by simp)
    | cons b t2 =>
      have hab : a = b := by
        rcases List.mem_cons.mp ha2 with h | hat2
        · exact h
        · have hb1 : b ∈ a :: t1 := hp.mem_iff.mpr (by simp)
          rcases List.mem_cons.mp hb1 with h | hbt1
          · exact h.symm
          · have h1 : le a b = true := (List.pairwise_cons.mp hs1).1 b hbt1
            have h2 : le b a = true := (List.pairwise_cons.mp hs2).1 a hat2
            exact hanti a (by simp) b (by simp [hbt1]) h1 h2
      subst hab
      have hperm' : List.Perm t1 t2 := hp.cons_inv
      have hrec := ih t2 hperm' (List.pairwise_cons.mp hs1).2 (List.pairwise_cons.mp hs2).2
        (fun x hx y hy hxy hyx => hanti x (by simp [hx]) y (by simp [hy]) hxy hyx)
      rw [hrec]

theorem take_sorted_perm {α : Type} (le : α → α → Bool) (S B C : List α) (n : Nat)
    (hperm : List.Perm S (B ++ C))
    (hsort : S.Pairwise (fun a b => le a b = true))
    (hnd : S.Nodup)
    (hn : B.length = n)
    (hbc : ∀ b ∈ B, ∀ c ∈ C, le c b = false) :
    List.Perm (S.take n) B := by
  have hlen : n ≤ S.length := by
    rw [hperm.length_eq, List.length_append]
    omega
  have hTlen : (S.take n).length = n := by
    rw [List.length_take]
    omega
  have hSsplit : S.take n ++ S.drop n = S := List.take_append_drop n S
  have hcross : ∀ x ∈ S.take n, ∀ d ∈ S.drop n, le x d = true := by
    have := hsort
    rw [← hSsplit] at this
    exact (List.pairwise_append.mp this).2.2
  have hdisj : ∀ x, x ∈ S.take n → x ∈ S.drop n → False := by
    have := hnd
    rw [← hSsplit] at this
    intro x h1 h2
    exact (List.nodup_append.mp this).2.2 h1 h2
  have hndB : B.Nodup := by
    have : (B ++ C).Nodup := hperm.nodup_iff.mp hnd
    exact (List.nodup_append.mp this).1
  have hsub : ∀ b ∈ B, b ∈ S.take n := by
    intro b hb
    have hbS : b ∈ S := hperm.symm.subset (by simp [hb])
    rw [← hSsplit] at hbS
    rcases List.mem_append.mp hbS with hT | hD
    · exact hT
    · exfalso
      by_cases hTB : ∀ x ∈ S.take n, x ∈ B
      · -- the take is a permutation of B, so b would be in both parts
        have hTnd : (S.take n).Nodup := hnd.sublist (List.take_sublist n S)
        have hTsub : List.Subperm (S.take n) B := List.subperm_of_subset hTnd hTB
        have hTperm : List.Perm (S.take n) B := hTsub.perm_of_length_le (by omega)
        exact hdisj b (hTperm.mem_iff.mpr hb) hD
      · push_neg at hTB
        obtain ⟨x, hxT, hxB⟩ := hTB
        have hxS : x ∈ S := by
          rw [← hSsplit]
          exact List.mem_append.mpr (Or.inl hxT)
        have hxBC : x ∈ B ++ C := hperm.subset hxS
        rcases List.mem_append.mp hxBC with h | hxC
        · exact hxB h
        · have h1 : le x b = true := hcross x hxT b hD
          have h2 : le x b = false := hbc b hb x hxC
          rw [h1] at h2
          exact absurd h2 (by simp)
  have hBsub : List.Subperm B (S.take n) := List.subperm_of_subset hndB hsub
  exact (hBsub.perm_of_length_le (by omega)).symm

theorem filter_partition {α : Type} (p q : α → Bool) (l : List α) :
    List.Perm (l.filter p) (l.filter (fun x => p x && q x) ++ l.filter (fun x => p x && !q x)) := by
  induction l with
  | nil => rfl
  | cons a t ih =>
    by_cases hp : p a = true
    · by_cases hq : q a = true
      · simp only [List.filter_cons, hp, hq, Bool.and_self, if_true, Bool.and_true,
          Bool.not_true, Bool.and_false]
        exact ih.cons a
      · have hqf : q a = false := by
          cases hcc : q a
          · rfl
          · exact absurd hcc hq
        simp only [List.filter_cons, hp, hqf, Bool.and_false, Bool.not_false, Bool.and_true,
          ite_true, ite_false]
        exact (ih.cons a).trans List.perm_middle.symm
    · have hpf : p a = false := by
        cases hcc : p a
        · rfl
        · exact absurd hcc hp
      simp only [List.filter_cons, hpf, Bool.false_and, ite_false]
      exact ih

theorem docKey_length {V : Type} (ordering : List Str) (r : Doc V) :
    (docKey ordering r).length = ordering.length := by
  simp [docKey]

theorem dirs_length (ordering : List Str) :
    (dirs ordering).length = ordering.length := by
  simp [dirs]

theorem recLe_total {V : Type} [LinearOrder V] (ordering : List Str) (a b : Doc V) :
    recLe ordering a b = true ∨ recLe ordering b a = true := by
  unfold recLe
  cases hc : tupleCmp (dirs ordering) (docKey ordering a) (docKey ordering b) with
  | lt => left; simp [hc]
  | eq => left; simp [hc]
  | gt =>
    right
    rw [tupleCmp_swap, hc]
    simp [Ordering.swap]

theorem recLe_trans {V : Type} [LinearOrder V] (ordering : List Str) (a b c : Doc V) :
    recLe ordering a b = true → recLe ordering b c = true → recLe ordering a c = true := by
  unfold recLe
  intro h1 h2
  simp only [decide_eq_true_eq] at h1 h2 ⊢
  exact tupleCmp_ne_gt_trans (dirs ordering) (docKey ordering a) (docKey ordering b)
    (docKey ordering c) (by simp [docKey_length]) (by simp [docKey_length])
    (by simp [docKey_length, dirs_length]) h1 h2

theorem lstripDash_invert (o : Str) : lstripDash (invert o) = lstripDash o := by
  cases o with
  | nil => rfl
  | cons c t =>
    by_cases h : c = '-'
    · subst h
      show lstripDash (if startsDash ('-' :: t) then ('-' :: t).tail else '-' :: '-' :: t) =
        lstripDash ('-' :: t)
      rw [if_pos (by simp)]
      show lstripDash t = if '-' = '-' then lstripDash t else '-' :: t
      rw [if_pos rfl]
    · show lstripDash (if startsDash (c :: t) then (c :: t).tail else '-' :: c :: t) =
        lstripDash (c :: t)
      rw [if_neg (by simp [h])]
      show (if '-' = '-' then lstripDash (c :: t) else '-' :: c :: t) = lstripDash (c :: t)
      rw [if_pos rfl]

theorem docKey_reverse {V : Type} (ordering : List Str) (r : Doc V) :
    docKey (reverse_ordering ordering) r = docKey ordering r := by
  unfold docKey reverse_ordering
  rw [List.map_map]
  apply List.map_congr_left
  intro o _
  show r (lstripDash (invert o)) = r (lstripDash o)
  rw [lstripDash_invert]

theorem dirs_reverse (ordering : List Str) (h : ∀ o ∈ ordering, singleDash o = true) :
    dirs (reverse_ordering ordering) = (dirs ordering).map (fun b => !b) := by
  unfold dirs reverse_ordering
  rw [List.map_map, List.map_map]
  apply List.map_congr_left
  intro o ho
  show startsDash (invert o) = !(startsDash o)
  exact invert_flips o (h o ho)

/-- The ordering-reversed comparison is the original comparison with the
arguments' roles flipped: `a ≤' b` iff the forward comparison of `a` with `b`
is not `lt`. -/
theorem recLe_reverse {V : Type} [LinearOrder V] (ordering : List Str)
    (h : ∀ o ∈ ordering, singleDash o = true) (a b : Doc V) :
    recLe (reverse_ordering ordering) a b =
      decide (tupleCmp (dirs ordering) (docKey ordering a) (docKey ordering b) ≠ .lt) := by
  unfold recLe
  rw [docKey_reverse, docKey_reverse, dirs_reverse ordering h, tupleCmp_not]
  cases tupleCmp (dirs ordering) (docKey ordering a) (docKey ordering b) with
  | lt => rfl
  | eq => rfl
  | gt => rfl

theorem recLe_reverse_flip {V : Type} [LinearOrder V] (ordering : List Str)
    (h1 : ∀ o ∈ ordering, singleDash o = true) (a b : Doc V)
    (h : recLe (reverse_ordering ordering) a b = true) :
    recLe ordering b a = true := by
  rw [recLe_reverse ordering h1] at h
  unfold recLe
  rw [tupleCmp_swap]
  simp only [decide_eq_true_eq] at h ⊢
  cases hc : tupleCmp (dirs ordering) (docKey ordering a) (docKey ordering b) with
  | lt => exact absurd hc h
  | eq => exact fun hh => Ordering.noConfusion hh
  | gt => exact fun hh => Ordering.noConfusion hh

theorem recLe_antisymm_key {V : Type} [LinearOrder V] (ordering : List Str) (a b : Doc V)
    (h1 : recLe ordering a b = true) (h2 : recLe ordering b a = true) :
    docKey ordering a = docKey ordering b := by
  unfold recLe at h1 h2
  simp only [decide_eq_true_eq] at h1 h2
  rw [tupleCmp_swap] at h2
  have heq : tupleCmp (dirs ordering) (docKey ordering a) (docKey ordering b) = .eq := by
    cases hc : tupleCmp (dirs ordering) (docKey ordering a) (docKey ordering b) with
    | lt => rw [hc] at h2; exact absurd rfl h2
    | eq => rfl
    | gt => exact absurd hc h1
  exact (tupleCmp_eq_iff (dirs ordering) (docKey ordering a) (docKey ordering b)
    (by simp [docKey_length, dirs_length]) (by simp [docKey_length])).mp heq

/-- C8: backward pagination executes the query under the field-wise inverse
ordering and reverses the fetched items, so `page(last=n, before=t2)`
returns its items in natural SortSpec order and yields exactly the same
items as the forward call `page(first=n, after=t1)` whenever the two tokens
bound the same logical window — here expressed by letting `n` be the number
of records strictly between the two decoded cursor positions. -/
theorem backward_forward_window {V : Type} [LinearOrder V] (cast : Str → V)
    (docs : List (Doc V)) (nullable : Str → Bool) (ordering : List Str)
    (hone : ∀ o ∈ ordering, singleDash o = true)
    (hnodup : (ordering.map lstripDash).Nodup)
    (hgood : ∀ o ∈ ordering, goodField (lstripDash o) = true)
    (hnd : docs.Nodup)
    (hinj : ∀ r1 ∈ docs, ∀ r2 ∈ docs,
      docKey ordering r1 = docKey ordering r2 → r1 = r2)
    (hrecn : ∀ r ∈ docs, ∀ f, r f = none → nullable f = true)
    (t1 t2 : Str) (ds1 ds2 : List (Option Str))
    (hd1 : decode_cursor t1 = .ok ds1) (hl1 : ds1.length = ordering.length)
    (hd2 : decode_cursor t2 = .ok ds2) (hl2 : ds2.length = ordering.length)
    (n : Nat)
    (hn : (docs.filter (fun r =>
        decide (docPosCmp ordering r (ds1.map (Option.map cast)) = Ordering.gt) &&
        decide (docPosCmp ordering r (ds2.map (Option.map cast)) = Ordering.lt))).length = n)
    (pgF pgB : CursorPage V)
    (hF : page cast (mkPaginator ⟨docs, nullable, [], .empty, none⟩ ordering)
        (some n) none (some t1) none = .ok pgF)
    (hB : page cast (mkPaginator ⟨docs, nullable, [], .empty, none⟩ ordering)
        none (some n) none (some t2) = .ok pgB) :
    pgB.items = pgF.items ∧
    pgF.items = (docs.filter (fun r =>
        decide (docPosCmp ordering r (ds1.map (Option.map cast)) = Ordering.gt) &&
        decide (docPosCmp ordering r (ds2.map (Option.map cast)) = Ordering.lt))).insertionSort
      (recLeP ordering) ∧
    pgF.items.Pairwise (recLeP ordering) := by
  haveI hTot : IsTotal (Doc V) (recLeP ordering) := ⟨fun a b => recLe_total ordering a b⟩
  haveI hTrans : IsTrans (Doc V) (recLeP ordering) :=
    ⟨fun a b c => recLe_trans ordering a b c⟩
  haveI hTot2 : IsTotal (Doc V) (recLeP (reverse_ordering ordering)) :=
    ⟨fun a b => recLe_total (reverse_ordering ordering) a b⟩
  haveI hTrans2 : IsTrans (Doc V) (recLeP (reverse_ordering ordering)) :=
    ⟨fun a b c => recLe_trans (reverse_ordering ordering) a b c⟩
  have hl1' : (ds1.map (Option.map cast)).length = ordering.length := by simpa using hl1
  have hl2' : (ds2.map (Option.map cast)).length = ordering.length := by simpa using hl2
  have hmin : min n (n + 1) = n := by omega
  rcases hq1 : applyCursorQ nullable ordering (ds1.map (Option.map cast)) false with e1 | q1
  · exfalso
    have hA1 : apply_paginator_arguments cast
        (mkPaginator (⟨docs, nullable, [], .empty, none⟩ : MQuerySet V) ordering)
        (mkPaginator (⟨docs, nullable, [], .empty, none⟩ : MQuerySet V) ordering).queryset
        (some n) none (some t1) none = .error e1 := by
      unfold apply_paginator_arguments apply_cursor
      simp only [mkPaginator, MQuerySet.order_by, hd1, hq1, Option.isSome_some,
        Option.isSome_none, Bool.and_false, Bool.false_and, Bool.false_eq_true, if_false,
        ite_false]
    unfold page at hF
    rw [hA1] at hF
    exact absurd hF (by simp)
  rcases hq2 : applyCursorQ nullable ordering (ds2.map (Option.map cast)) true with e2 | q2
  · exfalso
    have hA2 : apply_paginator_arguments cast
        (mkPaginator (⟨docs, nullable, [], .empty, none⟩ : MQuerySet V) ordering)
        (mkPaginator (⟨docs, nullable, [], .empty, none⟩ : MQuerySet V) ordering).queryset
        none (some n) none (some t2) = .error e2 := by
      unfold apply_paginator_arguments apply_cursor
      simp only [mkPaginator, MQuerySet.order_by, hd2, hq2, Option.isSome_some,
        Option.isSome_none, Bool.and_false, Bool.false_and, Bool.false_eq_true, if_false,
        ite_false]
    unfold page at hB
    rw [hA2] at hB
    exact absurd hB (by simp)
  have hA1 : apply_paginator_arguments cast
      (mkPaginator (⟨docs, nullable, [], .empty, none⟩ : MQuerySet V) ordering)
      (mkPaginator (⟨docs, nullable, [], .empty, none⟩ : MQuerySet V) ordering).queryset
      (some n) none (some t1) none =
      .ok ⟨docs, nullable, ordering, qcombineAnd QPred.empty q1, some (n + 1)⟩ := by
    unfold apply_paginator_arguments apply_cursor
    simp only [mkPaginator, MQuerySet.order_by, MQuerySet.filterQ, MQuerySet.slice,
      hd1, hq1, Option.isSome_some, Option.isSome_none, Bool.and_false, Bool.false_and,
      Bool.false_eq_true, if_false, ite_false]
  have hA2 : apply_paginator_arguments cast
      (mkPaginator (⟨docs, nullable, [], .empty, none⟩ : MQuerySet V) ordering)
      (mkPaginator (⟨docs, nullable, [], .empty, none⟩ : MQuerySet V) ordering).queryset
      none (some n) none (some t2) =
      .ok ⟨docs, nullable, reverse_ordering ordering, qcombineAnd QPred.empty q2,
        some (n + 1)⟩ := by
    unfold apply_paginator_arguments apply_cursor
    simp only [mkPaginator, MQuerySet.order_by, MQuerySet.filterQ, MQuerySet.slice,
      hd2, hq2, Option.isSome_some, Option.isSome_none, Bool.and_false, Bool.false_and,
      Bool.false_eq_true, if_false, ite_false]
  unfold page at hF hB
  rw [hA1] at hF
  rw [hA2] at hB
  injection hF with hF2
  injection hB with hB2
  have hFitems : pgF.items =
      ((docs.filter (fun r => (qcombineAnd QPred.empty q1).eval r)).insertionSort
        (recLeP ordering)).take n := by
    rw [← hF2]
    show (((docs.filter (fun r => (qcombineAnd QPred.empty q1).eval r)).insertionSort
        (recLeP ordering)).take (n + 1)).take n = _
    rw [List.take_take, hmin]
  have hBitems : pgB.items =
      (((docs.filter (fun r => (qcombineAnd QPred.empty q2).eval r)).insertionSort
        (recLeP (reverse_ordering ordering))).take n).reverse := by
    rw [← hB2]
    show ((((docs.filter (fun r => (qcombineAnd QPred.empty q2).eval r)).insertionSort
        (recLeP (reverse_ordering ordering))).take (n + 1)).take n).reverse = _
    rw [List.take_take, hmin]
  by_cases hq1e : q1 = QPred.empty
  · -- the forward boundary emitted no branch: the window is empty and n = 0
    subst hq1e
    have hgt0 : ∀ r ∈ docs,
        decide (docPosCmp ordering r (ds1.map (Option.map cast)) = Ordering.gt) = false := by
      intro r hr
      have h := applyCursorQ_empty nullable ordering (ds1.map (Option.map cast)) false r
        (hrecn r hr) hl1' hnodup hgood hq1
      have h' : docPosCmp ordering r (ds1.map (Option.map cast)) ≠ Ordering.gt := h
      exact decide_eq_false h'
    have hB0 : docs.filter (fun r =>
        decide (docPosCmp ordering r (ds1.map (Option.map cast)) = Ordering.gt) &&
        decide (docPosCmp ordering r (ds2.map (Option.map cast)) = Ordering.lt)) = [] := by
      rw [List.filter_eq_nil_iff]
      intro r hr
      rw [hgt0 r hr]
      simp
    rw [hB0] at hn
    have hn0 : n = 0 := by simpa using hn.symm
    subst hn0
    refine ⟨?_, ?_, ?_⟩
    · rw [hBitems, hFitems]
      simp
    · rw [hFitems, hB0]
      simp [List.insertionSort]
    · rw [hFitems]
      simp
  by_cases hq2e : q2 = QPred.empty
  · -- the backward boundary emitted no branch: again the window is empty
    subst hq2e
    have hlt0 : ∀ r ∈ docs,
        decide (docPosCmp ordering r (ds2.map (Option.map cast)) = Ordering.lt) = false := by
      intro r hr
      have h := applyCursorQ_empty nullable ordering (ds2.map (Option.map cast)) true r
        (hrecn r hr) hl2' hnodup hgood hq2
      have h' : docPosCmp ordering r (ds2.map (Option.map cast)) ≠ Ordering.lt := h
      exact decide_eq_false h'
    have hB0 : docs.filter (fun r =>
        decide (docPosCmp ordering r (ds1.map (Option.map cast)) = Ordering.gt) &&
        decide (docPosCmp ordering r (ds2.map (Option.map cast)) = Ordering.lt)) = [] := by
      rw [List.filter_eq_nil_iff]
      intro r hr
      rw [hlt0 r hr]
      simp
    rw [hB0] at hn
    have hn0 : n = 0 := by simpa using hn.symm
    subst hn0
    refine ⟨?_, ?_, ?_⟩
    · rw [hBitems, hFitems]
      simp
    · rw [hFitems, hB0]
      simp [List.insertionSort]
    · rw [hFitems]
      simp
  -- main case: both boundary predicates emitted at least one branch
  have hfiltF : docs.filter (fun r => (qcombineAnd QPred.empty q1).eval r) =
      docs.filter (fun r =>
        decide (docPosCmp ordering r (ds1.map (Option.map cast)) = Ordering.gt)) := by
    apply List.filter_congr
    intro r hr
    rw [qcombineAnd_empty_left]
    have heval := applyCursorQ_eval nullable ordering (ds1.map (Option.map cast)) false q1 r
      (hrecn r hr) hl1' hnodup hgood hq1 hq1e
    rw [heval]
    rfl
  have hfiltB : docs.filter (fun r => (qcombineAnd QPred.empty q2).eval r) =
      docs.filter (fun r =>
        decide (docPosCmp ordering r (ds2.map (Option.map cast)) = Ordering.lt)) := by
    apply List.filter_congr
    intro r hr
    rw [qcombineAnd_empty_left]
    have heval := applyCursorQ_eval nullable ordering (ds2.map (Option.map cast)) true q2 r
      (hrecn r hr) hl2' hnodup hgood hq2 hq2e
    rw [heval]
    rfl
  -- forward: the first n sorted records past t1 are exactly the window
  have hSperm : List.Perm ((docs.filter (fun r =>
      decide (docPosCmp ordering r (ds1.map (Option.map cast)) = Ordering.gt))).insertionSort
      (recLeP ordering))
      ((docs.filter (fun r =>
        decide (docPosCmp ordering r (ds1.map (Option.map cast)) = Ordering.gt) &&
        decide (docPosCmp ordering r (ds2.map (Option.map cast)) = Ordering.lt))) ++
       (docs.filter (fun r =>
        decide (docPosCmp ordering r (ds1.map (Option.map cast)) = Ordering.gt) &&
        !decide (docPosCmp ordering r (ds2.map (Option.map cast)) = Ordering.lt)))) :=
    (List.perm_insertionSort (recLeP ordering) _).trans (filter_partition _ _ docs)
  have hsortF : ((docs.filter (fun r =>
      decide (docPosCmp ordering r (ds1.map (Option.map cast)) = Ordering.gt))).insertionSort
      (recLeP ordering)).Pairwise (fun a b => recLe ordering a b = true) :=
    List.sorted_insertionSort (recLeP ordering) _
  have hndF : ((docs.filter (fun r =>
      decide (docPosCmp ordering r (ds1.map (Option.map cast)) = Ordering.gt))).insertionSort
      (recLeP ordering)).Nodup :=
    ((List.perm_insertionSort (recLeP ordering) _).nodup_iff).mpr (hnd.filter _)
  have hbcF : ∀ b ∈ docs.filter (fun r =>
        decide (docPosCmp ordering r (ds1.map (Option.map cast)) = Ordering.gt) &&
        decide (docPosCmp ordering r (ds2.map (Option.map cast)) = Ordering.lt)),
      ∀ c ∈ docs.filter (fun r =>
        decide (docPosCmp ordering r (ds1.map (Option.map cast)) = Ordering.gt) &&
        !decide (docPosCmp ordering r (ds2.map (Option.map cast)) = Ordering.lt)),
      recLe ordering c b = false := by
    intro b hb c hc
    rw [List.mem_filter] at hb hc
    have hblt : docPosCmp ordering b (ds2.map (Option.map cast)) = Ordering.lt := by
      have h := hb.2
      simp only [Bool.and_eq_true, decide_eq_true_eq] at h
      exact h.2
    have hcnlt : docPosCmp ordering c (ds2.map (Option.map cast)) ≠ Ordering.lt := by
      have h := hc.2
      simp only [Bool.and_eq_true, Bool.not_eq_true', decide_eq_false_iff_not] at h
      exact h.2
    have hlt : tupleCmp (dirs ordering) (docKey ordering b) (docKey ordering c) =
        Ordering.lt := by
      refine tupleCmp_lt_of_lt_of_le (dirs ordering) (docKey ordering b)
        (ds2.map (Option.map cast)) (docKey ordering c) ?_ ?_ ?_ hblt ?_
      · simp [docKey_length, hl2']
      · simp [docKey_length]
      · simp [dirs_length, hl2']
      · rw [tupleCmp_swap]
        cases hcc : tupleCmp (dirs ordering) (docKey ordering c)
            (ds2.map (Option.map cast)) with
        | lt => exact absurd hcc hcnlt
        | eq => exact fun hh => Ordering.noConfusion hh
        | gt => exact fun hh => Ordering.noConfusion hh
    unfold recLe
    rw [tupleCmp_swap, hlt]
    rfl
  have hFwin : List.Perm
      ((((docs.filter (fun r =>
        decide (docPosCmp ordering r (ds1.map (Option.map cast)) = Ordering.gt))).insertionSort
        (recLeP ordering))).take n)
      (docs.filter (fun r =>
        decide (docPosCmp ordering r (ds1.map (Option.map cast)) = Ordering.gt) &&
        decide (docPosCmp ordering r (ds2.map (Option.map cast)) = Ordering.lt))) :=
    take_sorted_perm (recLe ordering) _ _ _ n hSperm hsortF hndF hn hbcF
  have hFpw : (((docs.filter (fun r =>
      decide (docPosCmp ordering r (ds1.map (Option.map cast)) = Ordering.gt))).insertionSort
      (recLeP ordering)).take n).Pairwise (fun a b => recLe ordering a b = true) :=
    List.Pairwise.sublist (List.take_sublist n _) hsortF
  have hmemF : ∀ a ∈ (((docs.filter (fun r =>
      decide (docPosCmp ordering r (ds1.map (Option.map cast)) = Ordering.gt))).insertionSort
      (recLeP ordering)).take n), a ∈ docs := by
    intro a ha
    have h1 := List.take_subset n _ ha
    have h2 := (List.perm_insertionSort (recLeP ordering) _).subset h1
    exact (List.mem_filter.mp h2).1
  have hFeq : (((docs.filter (fun r =>
      decide (docPosCmp ordering r (ds1.map (Option.map cast)) = Ordering.gt))).insertionSort
      (recLeP ordering)).take n) =
      (docs.filter (fun r =>
        decide (docPosCmp ordering r (ds1.map (Option.map cast)) = Ordering.gt) &&
        decide (docPosCmp ordering r (ds2.map (Option.map cast)) = Ordering.lt))).insertionSort
      (recLeP ordering) := by
    apply sorted_perm_eq (recLe ordering)
    · exact hFwin.trans (List.perm_insertionSort (recLeP ordering) _).symm
    · exact hFpw
    · exact List.sorted_insertionSort (recLeP ordering) _
    · intro a ha b hb h1 h2
      exact hinj a (hmemF a ha) b (hmemF b hb) (recLe_antisymm_key ordering a b h1 h2)
  -- backward: the first n reverse-sorted records before t2, reversed
  have hcomm : docs.filter (fun r =>
      decide (docPosCmp ordering r (ds2.map (Option.map cast)) = Ordering.lt) &&
      decide (docPosCmp ordering r (ds1.map (Option.map cast)) = Ordering.gt)) =
      docs.filter (fun r =>
      decide (docPosCmp ordering r (ds1.map (Option.map cast)) = Ordering.gt) &&
      decide (docPosCmp ordering r (ds2.map (Option.map cast)) = Ordering.lt)) := by
    apply List.filter_congr
    intro r _
    exact Bool.and_comm _ _
  have hSpermB : List.Perm ((docs.filter (fun r =>
      decide (docPosCmp ordering r (ds2.map (Option.map cast)) = Ordering.lt))).insertionSort
      (recLeP (reverse_ordering ordering)))
      ((docs.filter (fun r =>
        decide (docPosCmp ordering r (ds2.map (Option.map cast)) = Ordering.lt) &&
        decide (docPosCmp ordering r (ds1.map (Option.map cast)) = Ordering.gt))) ++
       (docs.filter (fun r =>
        decide (docPosCmp ordering r (ds2.map (Option.map cast)) = Ordering.lt) &&
        !decide (docPosCmp ordering r (ds1.map (Option.map cast)) = Ordering.gt)))) :=
    (List.perm_insertionSort (recLeP (reverse_ordering ordering)) _).trans
      (filter_partition _ _ docs)
  have hsortB : ((docs.filter (fun r =>
      decide (docPosCmp ordering r (ds2.map (Option.map cast)) = Ordering.lt))).insertionSort
      (recLeP (reverse_ordering ordering))).Pairwise
      (fun a b => recLe (reverse_ordering ordering) a b = true) :=
    List.sorted_insertionSort (recLeP (reverse_ordering ordering)) _
  have hndB : ((docs.filter (fun r =>
      decide (docPosCmp ordering r (ds2.map (Option.map cast)) = Ordering.lt))).insertionSort
      (recLeP (reverse_ordering ordering))).Nodup :=
    ((List.perm_insertionSort (recLeP (reverse_ordering ordering)) _).nodup_iff).mpr
      (hnd.filter _)
  have hnB : (docs.filter (fun r =>
      decide (docPosCmp ordering r (ds2.map (Option.map cast)) = Ordering.lt) &&
      decide (docPosCmp ordering r (ds1.map (Option.map cast)) = Ordering.gt))).length = n := by
    rw [hcomm]
    exact hn
  have hbcB : ∀ b ∈ docs.filter (fun r =>
        decide (docPosCmp ordering r (ds2.map (Option.map cast)) = Ordering.lt) &&
        decide (docPosCmp ordering r (ds1.map (Option.map cast)) = Ordering.gt)),
      ∀ c ∈ docs.filter (fun r =>
        decide (docPosCmp ordering r (ds2.map (Option.map cast)) = Ordering.lt) &&
        !decide (docPosCmp ordering r (ds1.map (Option.map cast)) = Ordering.gt)),
      recLe (reverse_ordering ordering) c b = false := by
    intro b hb c hc
    rw [List.mem_filter] at hb hc
    have hbgt : tupleCmp (dirs ordering) (docKey ordering b)
        (ds1.map (Option.map cast)) = Ordering.gt := by
      have h := hb.2
      simp only [Bool.and_eq_true, decide_eq_true_eq] at h
      exact h.2
    have hcngt : docPosCmp ordering c (ds1.map (Option.map cast)) ≠ Ordering.gt := by
      have h := hc.2
      simp only [Bool.and_eq_true, Bool.not_eq_true', decide_eq_false_iff_not] at h
      exact h.2
    have hlt : tupleCmp (dirs ordering) (docKey ordering c) (docKey ordering b) =
        Ordering.lt := by
      refine tupleCmp_lt_of_le_of_lt (dirs ordering) (docKey ordering c)
        (ds1.map (Option.map cast)) (docKey ordering b) ?_ ?_ ?_ hcngt ?_
      · simp [docKey_length, hl1']
      · simp [docKey_length]
      · simp [docKey_length, dirs_length]
      · rw [tupleCmp_swap, hbgt]
        rfl
    rw [recLe_reverse ordering hone, hlt]
    rfl
  have hBwin : List.Perm
      ((((docs.filter (fun r =>
        decide (docPosCmp ordering r (ds2.map (Option.map cast)) = Ordering.lt))).insertionSort
        (recLeP (reverse_ordering ordering)))).take n)
      (docs.filter (fun r =>
        decide (docPosCmp ordering r (ds2.map (Option.map cast)) = Ordering.lt) &&
        decide (docPosCmp ordering r (ds1.map (Option.map cast)) = Ordering.gt))) :=
    take_sorted_perm (recLe (reverse_ordering ordering)) _ _ _ n hSpermB hsortB hndB hnB hbcB
  have hBpw' : (((docs.filter (fun r =>
      decide (docPosCmp ordering r (ds2.map (Option.map cast)) = Ordering.lt))).insertionSort
      (recLeP (reverse_ordering ordering))).take n).Pairwise
      (fun a b => recLe (reverse_ordering ordering) a b = true) :=
    List.Pairwise.sublist (List.take_sublist n _) hsortB
  have hBpw : ((((docs.filter (fun r =>
      decide (docPosCmp ordering r (ds2.map (Option.map cast)) = Ordering.lt))).insertionSort
      (recLeP (reverse_ordering ordering))).take n).reverse).Pairwise
      (fun a b => recLe ordering a b = true) := by
    rw [List.pairwise_reverse]
    exact List.Pairwise.imp (fun h => recLe_reverse_flip ordering hone _ _ h) hBpw'
  have hmemB : ∀ a ∈ ((((docs.filter (fun r =>
      decide (docPosCmp ordering r (ds2.map (Option.map cast)) = Ordering.lt))).insertionSort
      (recLeP (reverse_ordering ordering))).take n).reverse), a ∈ docs := by
    intro a ha
    rw [List.mem_reverse] at ha
    have h1 := List.take_subset n _ ha
    have h2 := (List.perm_insertionSort (recLeP (reverse_ordering ordering)) _).subset h1
    exact (List.mem_filter.mp h2).1
  have hBeq : ((((docs.filter (fun r =>
      decide (docPosCmp ordering r (ds2.map (Option.map cast)) = Ordering.lt))).insertionSort
      (recLeP (reverse_ordering ordering))).take n).reverse) =
      (docs.filter (fun r =>
        decide (docPosCmp ordering r (ds1.map (Option.map cast)) = Ordering.gt) &&
        decide (docPosCmp ordering r (ds2.map (Option.map cast)) = Ordering.lt))).insertionSort
      (recLeP ordering) := by
    apply sorted_perm_eq (recLe ordering)
    · have h1 := (List.reverse_perm _).trans hBwin
      rw [hcomm] at h1
      exact h1.trans (List.perm_insertionSort (recLeP ordering) _).symm
    · exact hBpw
    · exact List.sorted_insertionSort (recLeP ordering) _
    · intro a ha b hb h1 h2
      exact hinj a (hmemB a ha) b (hmemB b hb) (recLe_antisymm_key ordering a b h1 h2)
  refine ⟨?_, ?_, ?_⟩
  · rw [hBitems, hfiltB, hBeq, hFitems, hfiltF, hFeq]
  · rw [hFitems, hfiltF, hFeq]
  · rw [hFitems, hfiltF]
    exact hFpw

theorem docA_injective (i j : Nat) (h : docA i = docA j) : i = j := by
  have h2 := congrFun h ['a']
  simp [docA] at h2
  exact h2

theorem docsABC_nodup : ([docA 1, docA 2, docA 3] : List (Doc Nat)).Nodup := by
  refine List.nodup_cons.mpr ⟨?_, List.nodup_cons.mpr ⟨?_,
    List.nodup_cons.mpr ⟨?_, List.nodup_nil⟩⟩⟩
  · intro h
    rcases List.mem_cons.mp h with h | h
    · exact absurd (docA_injective 1 2 h) (by decide)
    · rcases List.mem_cons.mp h with h | h
      · exact absurd (docA_injective 1 3 h) (by decide)
      · exact absurd h (List.not_mem_nil _)
  · intro h
    rcases List.mem_cons.mp h with h | h
    · exact absurd (docA_injective 2 3 h) (by decide)
    · exact absurd h (List.not_mem_nil _)
  · exact List.not_mem_nil _

theorem docsABC_inj : ∀ r1 ∈ ([docA 1, docA 2, docA 3] : List (Doc Nat)),
    ∀ r2 ∈ ([docA 1, docA 2, docA 3] : List (Doc Nat)),
    docKey [['a']] r1 = docKey [['a']] r2 → r1 = r2 := by
  intro r1 h1 r2 h2 hk
  simp only [List.mem_cons, List.not_mem_nil, or_false] at h1 h2
  rcases h1 with h1 | h1 | h1 <;> rcases h2 with h2 | h2 | h2 <;> subst h1 <;> subst h2 <;>
    first
    | rfl
    | exact absurd hk (by decide)

theorem backward_forward_window_witness :
    ([docA 2] : List (Doc Nat)) = [docA 2] ∧
    ([docA 2] : List (Doc Nat)) =
      (([docA 1, docA 2, docA 3].filter (fun r =>
        decide (docPosCmp [['a']] r ([some ['1']].map (Option.map castLen)) = Ordering.gt) &&
        decide (docPosCmp [['a']] r
          ([some ['9','9','9']].map (Option.map castLen)) = Ordering.lt))).insertionSort
        (recLeP [['a']])) ∧
    ([docA 2] : List (Doc Nat)).Pairwise (recLeP [['a']]) :=
  backward_forward_window castLen [docA 1, docA 2, docA 3] nblAll [['a']]
    (by decide) (by decide) (by decide) docsABC_nodup docsABC_inj (fun r hr f hf => rfl)
    (encode_cursor (positionToStrings [some ['1']]))
    (encode_cursor (positionToStrings [some ['9','9','9']]))
    [some ['1']] [some ['9','9','9']] (by rfl) (by decide) (by rfl) (by decide) 1 (by decide)
    ⟨[docA 2], true, true⟩ ⟨[docA 2], true, true⟩ (by rfl) (by rfl)
